import Mathlib

/-!
# Verification of the Sunscreen compiler/runtime core

A shallow embedding, in Lean 4, of the core of the Sunscreen repository:

* the Bulletproofs ZKP backend (`sunscreen_zkp_backend/src/bulletproofs.rs`):
  `BigInt`-to-`Scalar` conversion, the `constraint_count` pre-pass and the
  `gen_circuit` R1CS generator;
* the FHE runtime (`sunscreen_runtime/src/lib.rs`): `run_program_unchecked`'s
  per-node callback and the `parallel_traverse` worker-pool scheduler;
* `TypeNameInfo` serialization (`sunscreen_frontend_types/src/types/mod.rs`);
* `ProgramNode::new` (`sunscreen/src/types/zkp/program_node.rs`).

Rust machine integers become `Nat` with explicit bounds, fallible code
returns `Except`, Rust panics become explicit `.panicked` error values,
and the multi-threaded scheduler is modelled as a small-step machine
executing one worker (a legal schedule of the pool).  External collaborators
(the dalek scalar field, the Bulletproofs constraint-system capability, the
`forward_traverse` helper of `sunscreen_compiler_common`, semver parsing)
are modelled from the specification's description of their interfaces, and
are marked `Modelled from the spec:` in their doc comments.
-/

/-! ## BigInt and the scalar field (bulletproofs.rs lines 501-581) -/

/-- The size of one `crypto_bigint` limb (64-bit words). -/
def wordSize : Nat := 2 ^ 64

/-- Value of a little-endian word list: `words[0] + 2^64 * (words[1] + ...)`. -/
def listVal (ws : List Nat) : Nat := ws.foldr (fun w acc => w + wordSize * acc) 0

/-- `crypto_bigint::UInt<8>` (a `U512`): eight little-endian 64-bit words. -/
structure BigInt where
  words : List Nat
deriving DecidableEq

/-- The numeric value of a `BigInt`. -/
def BigInt.val (b : BigInt) : Nat := listVal b.words

/-- A well-formed `U512`: exactly eight words, each below `2^64`. -/
def BigInt.wf (b : BigInt) : Prop := b.words.length = 8 ∧ ∀ w ∈ b.words, w < wordSize

/-- `BigInt::from_words` of `Scalar::FIELD_MODULUS` (bulletproofs.rs lines 531-540). -/
def FIELD_MODULUS : BigInt :=
  ⟨[6346243789798364141, 1503914060200516822, 0, 0x1000000000000000, 0, 0, 0, 0]⟩

/-- The Ristretto scalar-field modulus `2^252 + 27742317777372353535851937790883648493`. -/
def fieldModulusNat : Nat := 2 ^ 252 + 27742317777372353535851937790883648493

instance : NeZero fieldModulusNat := ⟨by decide⟩

/-- `curve25519_dalek::Scalar`: an element of the Ristretto scalar field. -/
abbrev Scalar := ZMod fieldModulusNat

/-- Errors of the ZKP backend.  The crate-level error enum is not under
`src/`; its shape is taken from the spec's error taxonomy (§7): `OutOfRange`,
`BackendGadgetError(description)` (the image of `R1CSError::GadgetError`),
`StaticConstraintMismatch`, the traversal-query errors, and `.panicked` for
Rust panics surfaced by the embedding. -/
inductive BpError
  | outOfRange (s : String)
  | backendGadgetError (description : String)
  | staticConstraintMismatch (expected actual : String)
  | missingLeft
  | missingRight
  | duplicateRole
  | malformedEdges
  | panicked (msg : String)
deriving DecidableEq

/-- Discriminator used to show which error variant the code produces. -/
def BpError.isStaticConstraintMismatch : BpError → Bool
  | .staticConstraintMismatch _ _ => true
  | _ => false

/-- Modelled from the spec: `Scalar::from_canonical_bytes` of curve25519-dalek
(an external collaborator) succeeds exactly on canonical encodings, i.e. on
values strictly below the field modulus (§6: "BigInts must be strictly less
than this modulus to convert to Scalars"). -/
def scalarFromCanonical (v : Nat) : Option Scalar :=
  if v < fieldModulusNat then some (v : Scalar) else none

/-- `try_uint_to_scalar` (bulletproofs.rs lines 501-527): split the eight
little-endian words into the lower four (256 bits, the scalar candidate) and
the upper four, require the upper words to be zero, then convert the lower
256 bits through `Scalar::from_canonical_bytes`. -/
def try_uint_to_scalar (b : BigInt) : Except BpError Scalar :=
  let lower := b.words.take 4
  let upper := b.words.drop 4
  if upper.all (fun w => w = 0) then
    match scalarFromCanonical (listVal lower) with
    | some s => .ok s
    | none => .error (.outOfRange (toString b.val))
  else .error (.outOfRange (toString b.val))

/-- `scalar_to_uint` (bulletproofs.rs lines 559-569): the scalar's 32
little-endian bytes (four 64-bit words) extended with zero bytes to a
`U512`. -/
def scalar_to_uint (s : Scalar) : BigInt :=
  ⟨[s.val % wordSize, s.val / wordSize % wordSize,
    s.val / wordSize ^ 2 % wordSize, s.val / wordSize ^ 3 % wordSize, 0, 0, 0, 0]⟩

/-! ## TypeNameInfo serialization (sunscreen_frontend_types/src/types/mod.rs lines 93-157) -/

/-- Modelled from the spec: a parsed semantic version (the `semver` crate is
an external collaborator; only the canonical `major.minor.patch` numeric form
is modelled). -/
structure Version where
  major : Nat
  minor : Nat
  patch : Nat
deriving DecidableEq

/-- `Display` of a version: `major.minor.patch`. -/
def Version.toString (v : Version) : String :=
  ToString.toString v.major ++ "." ++ ToString.toString v.minor ++ "." ++ ToString.toString v.patch

/-- Split a character list at every occurrence of `sep` (the semantics of
Rust's `str::split` with a one-character pattern: `n` separators yield
`n + 1` pieces, empty pieces included). -/
def splitOnChar (sep : Char) : List Char → List (List Char)
  | [] => [[]]
  | c :: cs =>
    match splitOnChar sep cs with
    | [] => if c = sep then [[], [c]] else [[c]]
    | h :: t => if c = sep then [] :: h :: t else (c :: h) :: t

/-- `s.split(",")`, as a list of strings. -/
def splitComma (s : String) : List String :=
  (splitOnChar ',' s.data).map (fun l => ⟨l⟩)

/-- Parse a decimal number from a character list (no sign, at least one
digit). -/
def parseNatChars (cs : List Char) : Option Nat :=
  if cs.isEmpty then none
  else cs.foldl
    (fun acc c => acc.bind (fun n => if c.isDigit then some (n * 10 + (c.toNat - 48)) else none))
    (some 0)

/-- Modelled from the spec: `semver::Version::parse` on the canonical numeric
triple form. -/
def parseVersion (s : String) : Except String Version :=
  match (splitOnChar '.' s.data).map parseNatChars with
  | [some a, some b, some c] => .ok ⟨a, b, c⟩
  | _ => .error s

/-- `TypeNameInfo` (types/mod.rs lines 94-104). -/
structure TypeNameInfo where
  name : String
  version : Version
deriving DecidableEq

/-- `Serialize for TypeNameInfo` (lines 106-115): `format!("{},{}", name, version)`. -/
def serializeTypeName (t : TypeNameInfo) : String :=
  t.name ++ "," ++ t.version.toString

/-- Deserialization errors: serde's `invalid_value` from the visitor, or the
`custom` version-parse error. -/
inductive DeError
  | invalidValue (got : String)
  | custom (msg : String)
deriving DecidableEq

/-- `TypeNameVisitor::visit_str` (lines 126-135): require exactly one comma
(`s.split(",").count() == 2`), otherwise `invalid_value`. -/
def visitStr (s : String) : Except DeError String :=
  if (splitComma s).length ≠ 2 then .error (.invalidValue s) else .ok s

/-- `Deserialize for TypeNameInfo` (lines 138-157): run the visitor, re-split on
the comma, parse the second component as a version. -/
def deserializeTypeName (s : String) : Except DeError TypeNameInfo := do
  let typeString ← visitStr s
  match splitComma typeString with
  | typename :: versionStr :: _ =>
    match parseVersion versionStr with
    | .ok v => .ok ⟨typename, v⟩
    | .error e => .error (.custom ("Failed to parse version: " ++ e))
  | _ => .error (.custom "Failed to parse version: missing component")

/-! ## ProgramNode and the index arena (sunscreen/src/types/zkp/program_node.rs lines 79-100) -/

/-- The thread-local bump arena (`INDEX_ARENA`) that owns the node-index
slices referenced by handles.  Allocation order is the list order. -/
structure Arena where
  slices : List (List Nat)

/-- `Bump::alloc_slice_copy`: bump-allocate a copy of the source slice and
return the allocation (as its index into the arena). -/
def Arena.allocSliceCopy (a : Arena) (src : List Nat) : Arena × Nat :=
  ({ slices := a.slices ++ [src] }, a.slices.length)

/-- Read a previously allocated slice back through its reference. -/
def Arena.read (a : Arena) (ref : Nat) : List Nat := a.slices.getD ref []

/-- `copy_from_slice`: overwrite an allocated slice in place. -/
def Arena.writeSlice (a : Arena) (ref : Nat) (src : List Nat) : Arena :=
  { slices := a.slices.set ref src }

/-- `ProgramNode` (program_node.rs lines 29-36): the handle stores a
reference into the arena (the `'static`-transmuted `&[NodeIndex]`). -/
structure ProgramNode where
  ids : Nat

/-- `ProgramNode::new` (lines 83-99): `alloc_slice_copy` the caller's slice
into the arena, `copy_from_slice` the ids over it, and store the reference. -/
def ProgramNode.new (ids : List Nat) (arena : Arena) : Arena × ProgramNode :=
  let (a1, r) := arena.allocSliceCopy ids
  let a2 := a1.writeSlice r ids
  (a2, ⟨r⟩)

/-! ## FHE runtime (sunscreen_runtime/src/lib.rs) -/

/-- Modelled from the spec: the FHE operation tag set (§3).  The
`sunscreen_ir` crate defining `Operation` is not under `src/`; the variants
and their inline operand references are those listed in the spec and used by
`run_program_unchecked`. -/
inductive FheOp
  | inputCiphertext (i : Nat)
  | outputCiphertext (src : Nat)
  | addCt (a b : Nat)
  | multiplyCt (a b : Nat)
  | relinearizeCt (a : Nat)
  | shiftLeft
  | shiftRight
  | swapRows
  | negateCt
  | subCt
  | literalCt (x : Nat)
deriving DecidableEq

/-- Modelled from the spec: an `IntermediateRepresentation` graph.  Nodes are
identified by their index in `ops`; `edges` are directed producer→consumer
pairs (petgraph edge direction). -/
structure FheIr where
  ops : List FheOp
  edges : List (Nat × Nat)
deriving DecidableEq

/-- `ir.graph.neighbors_directed(n, Direction::Outgoing)`: targets of the
out-edges of `n`, one entry per edge. -/
def FheIr.outNeighbors (ir : FheIr) (n : Nat) : List Nat :=
  (ir.edges.filter (fun e => e.1 = n)).map (fun e => e.2)

/-- Symbolic ciphertext values: the free algebra over the evaluator
capability (§6: `add`, `multiply`, `relinearize`), with `input i` standing
for `inputs[i]`. -/
inductive CtVal
  | input (i : Nat)
  | addCt (a b : CtVal)
  | mulCt (a b : CtVal)
  | relinCt (a : CtVal)
deriving DecidableEq

/-- `Cow<Ciphertext>`: a borrowed or owned ciphertext in the operand table. -/
inductive CowCt
  | borrowed (v : CtVal)
  | owned (v : CtVal)
deriving DecidableEq

/-- Dereference a `Cow` (both variants hold the same logical value). -/
def CowCt.value : CowCt → CtVal
  | .borrowed v => v
  | .owned v => v

/-- Failure modes of the `run_program_unchecked` callback: the
`get_ciphertext` panic for an empty slot, `unimplemented!()` operations, the
missing-relin-keys `expect`, and an out-of-range node index. -/
inductive FheError
  | noCiphertext (idx : Nat)
  | unimplementedOp
  | missingRelinKeys
  | nodeMissing (idx : Nat)
deriving DecidableEq

/-- `get_ciphertext` (lib.rs lines 41-56): read a slot of the operand table;
panic ("No ciphertext found for node") if it was never written. -/
def getCiphertext (data : List (Option CowCt)) (i : Nat) : Except FheError CtVal :=
  match data.getD i none with
  | some c => .ok c.value
  | none => .error (.noCiphertext i)

/-- The operand table as initially allocated: `node_count` empty cells
(lib.rs lines 58-63). -/
def initTable (n : Nat) : List (Option CowCt) := List.replicate n none

/-- The per-node callback of `run_program_unchecked` (lib.rs lines 67-113),
acting on the operand table.  Note the `InputCiphertext(id)` arm: the code
stores at `data[*id]` — the *input index* — not at the visited node's own
slot (`data[index.index()]`, used by every other arm). -/
def fheVisit (ir : FheIr) (inputs : Nat → CtVal) (relinKeys : Bool)
    (data : List (Option CowCt)) (idx : Nat) : Except FheError (List (Option CowCt)) :=
  match ir.ops[idx]? with
  | none => .error (.nodeMissing idx)
  | some op =>
    match op with
    | .inputCiphertext id => .ok (data.set id (some (.borrowed (inputs id))))
    | .shiftLeft => .error .unimplementedOp
    | .shiftRight => .error .unimplementedOp
    | .addCt a b => do
        let x ← getCiphertext data a
        let y ← getCiphertext data b
        .ok (data.set idx (some (.owned (.addCt x y))))
    | .multiplyCt a b => do
        let x ← getCiphertext data a
        let y ← getCiphertext data b
        .ok (data.set idx (some (.owned (.mulCt x y))))
    | .swapRows => .error .unimplementedOp
    | .relinearizeCt a =>
        if relinKeys then do
          let x ← getCiphertext data a
          .ok (data.set idx (some (.owned (.relinCt x))))
        else .error .missingRelinKeys
    | .negateCt => .error .unimplementedOp
    | .subCt => .error .unimplementedOp
    | .literalCt _ => .error .unimplementedOp
    | .outputCiphertext a => do
        let x ← getCiphertext data a
        .ok (data.set idx (some (.borrowed x)))

/-- Visit a sequence of nodes with the `run_program_unchecked` callback,
threading the operand table. -/
def runVisits (ir : FheIr) (inputs : Nat → CtVal) (idxs : List Nat)
    (data : List (Option CowCt)) : Except FheError (List (Option CowCt)) :=
  idxs.foldlM (fheVisit ir inputs false) data

/-! ### The `parallel_traverse` scheduler (lib.rs lines 129-208)

The worker pool is modelled as a small-step machine executing one worker —
a legal schedule of the pool (any number of workers interleave these same
steps; the channel is the single MPMC queue).  The `HashMap` iteration that
seeds the queue is modelled in node-index order; for the graphs below the
seed *set* alone decides the outcome. -/

/-- One worker's scheduler state: the channel contents, the per-node
dependency counters (`deps`), the nodes visited so far, and the shared
`items_remaining` counter. -/
structure WorkerState where
  queue : List Nat
  deps : List Nat
  visited : List Nat
  itemsRemaining : Nat
deriving DecidableEq

/-- `parallel_traverse` initialization (lib.rs lines 139-160): each node's
counter is its **outgoing** (`Direction::Outgoing`) neighbor count, and every
node whose counter is zero is sent to the channel. -/
def initWorkerState (ir : FheIr) : WorkerState :=
  let deps := (List.range ir.ops.length).map (fun n => (ir.outNeighbors n).length)
  { queue := (List.range ir.ops.length).filter (fun n => deps.getD n 0 = 0)
    deps := deps
    visited := []
    itemsRemaining := ir.ops.length }

/-- The `while updated_count { ... }` block of the worker (lib.rs lines
166-189), entered with `updated_count = false`.  Returns the new
`items_remaining` and whether the worker `return`ed.  The compare-exchange is
modelled as always succeeding (no competing worker).  Because the guard is
false on entry, the body never runs. -/
def countCheckLoop : Nat → Bool → Nat → Option (Nat × Bool)
  | 0, _, _ => none
  | _ + 1, false, items => some (items, false)
  | fuel + 1, true, items =>
      if items = 0 then some (items, true) else countCheckLoop fuel true (items - 1)

/-- Outcome of running one worker: it `return`ed, it is blocked forever on
`reciever.recv()` (the senders are never dropped while the scoped pool
lives), or the step budget ran out. -/
inductive TravOutcome
  | finished (st : WorkerState)
  | blockedOnRecv (st : WorkerState)
  | outOfFuel (st : WorkerState)
deriving DecidableEq

/-- Whether the worker exited its loop (the only way `parallel_traverse` can
join its scoped pool and return). -/
def TravOutcome.isFinished : TravOutcome → Bool
  | .finished _ => true
  | _ => false

/-- One worker of `parallel_traverse` (lib.rs lines 164-205): run the
count-check phase, then `recv` a node (blocking forever if the channel is
empty), invoke the callback, and for each outgoing neighbor `fetch_sub` its
counter, sending it when the value prior to subtraction was 1. -/
def workerRun (ir : FheIr) : Nat → WorkerState → TravOutcome
  | 0, st => .outOfFuel st
  | fuel + 1, st =>
    match countCheckLoop (st.itemsRemaining + 1) false st.itemsRemaining with
    | none => .outOfFuel st
    | some (items, true) => .finished { st with itemsRemaining := items }
    | some (items, false) =>
      match st.queue with
      | [] => .blockedOnRecv { st with itemsRemaining := items }
      | n :: rest =>
        let st0 : WorkerState :=
          { queue := rest, deps := st.deps, visited := st.visited ++ [n]
            itemsRemaining := items }
        let st1 := (ir.outNeighbors n).foldl
          (fun s m =>
            let old := s.deps.getD m 0
            let s' : WorkerState := { s with deps := s.deps.set m (old - 1) }
            if old = 1 then { s' with queue := s'.queue ++ [m] } else s') st0
        workerRun ir fuel st1

/-- The `simple_add`-shaped program (lib.rs lines 251-272, with the two
distinct input ids the executor expects): two input nodes, an `Add`, and an
`OutputCiphertext`, with edges 0→2, 1→2, 2→3. -/
def gAdd4 : FheIr :=
  ⟨[.inputCiphertext 0, .inputCiphertext 1, .addCt 0 1, .outputCiphertext 2],
   [(0, 2), (1, 2), (2, 3)]⟩

/-- A one-node program: a single input ciphertext. -/
def irOne : FheIr := ⟨[.inputCiphertext 0], []⟩

/-- The graph of the repository's own `simple_add` test (lib.rs lines
253-258): both input nodes carry input id 0. -/
def gTestAdd : FheIr :=
  ⟨[.inputCiphertext 0, .inputCiphertext 0, .addCt 0 1, .outputCiphertext 2],
   [(0, 2), (1, 2), (2, 3)]⟩

/-- A two-node program whose input ids are swapped relative to the node
indices: node 0 is `InputCiphertext(1)`, node 1 is `InputCiphertext(0)`. -/
def gSwap : FheIr := ⟨[.inputCiphertext 1, .inputCiphertext 0], []⟩

/-! ## ZKP executable graphs (sunscreen_zkp_backend/src/bulletproofs.rs)

The `ExecutableZkpProgram` graph type and the traversal/query helpers live in
`sunscreen_compiler_common`, which is not under `src/`; graph shape and query
semantics are modelled from the spec (§3, §4.4). -/

/-- Edge roles (`EdgeInfo`): `Left`, `Right`, `Unordered` (§3). -/
inductive EdgeInfo
  | left
  | right
  | unordered
deriving DecidableEq

/-- A directed edge, producer → consumer, with its role. -/
structure ZkEdge where
  source : Nat
  target : Nat
  info : EdgeInfo
deriving DecidableEq

/-- The ZKP operation tag set (`crate::exec::Operation`, per §3). -/
inductive ZkOp
  | input (x : Nat)
  | hiddenInput (x : Option BigInt)
  | constant (x : BigInt)
  | add
  | sub
  | neg
  | mul
  | constraint (x : BigInt)
deriving DecidableEq

/-- An `ExecutableZkpProgram`: nodes are positions in `ops`; `edges` carry
roles.  Indices of a `StableGraph` stay valid, and none of the modelled code
removes nodes, so positions model `NodeIndex` faithfully. -/
structure ZkpGraph where
  ops : List ZkOp
  edges : List ZkEdge
deriving DecidableEq

/-- Incoming edges of `n`, in insertion order. -/
def inEdges (g : ZkpGraph) (n : Nat) : List ZkEdge :=
  g.edges.filter (fun e => e.target = n)

/-- Outgoing edges of `n`, in insertion order. -/
def outEdges (g : ZkpGraph) (n : Nat) : List ZkEdge :=
  g.edges.filter (fun e => e.source = n)

/-- `graph.neighbors(n).count()` (petgraph counts one entry per edge). -/
def outDegree (g : ZkpGraph) (n : Nat) : Nat := (outEdges g n).length

/-- Number of incoming edges of `n`. -/
def inDegree (g : ZkpGraph) (n : Nat) : Nat := (inEdges g n).length

/-- Modelled from the spec (§4.4): `get_binary_operands(n) → (left, right)`
by edge role; fail `MissingLeft`/`MissingRight`/`DuplicateRole`. -/
def getBinaryOperands (g : ZkpGraph) (n : Nat) : Except BpError (Nat × Nat) :=
  match (inEdges g n).filter (fun e => e.info = .left),
        (inEdges g n).filter (fun e => e.info = .right) with
  | [l], [r] => .ok (l.source, r.source)
  | [], _ => .error .missingLeft
  | _, [] => .error .missingRight
  | _, _ => .error .duplicateRole

/-- Modelled from the spec (§4.4): `get_unary_operand(n)` → the single
predecessor of any role, or `MalformedEdges`. -/
def getUnaryOperand (g : ZkpGraph) (n : Nat) : Except BpError Nat :=
  match inEdges g n with
  | [e] => .ok e.source
  | _ => .error .malformedEdges

/-- Modelled from the spec (§4.4): `get_unordered_operands(n)` → the
sequence of `Unordered` predecessors. -/
def getUnorderedOperands (g : ZkpGraph) (n : Nat) : List Nat :=
  ((inEdges g n).filter (fun e => e.info = .unordered)).map (fun e => e.source)

/-! ### The Bulletproofs constraint-system capability

Modelled from the spec (§4.7, §6): `allocate(Option<Scalar>) → Variable`,
`multiply(LC, LC) → (Variable, Variable, Variable)`, `constrain(LC)`.  The
concrete Bulletproofs prover/verifier is an external collaborator; the state
records what the claims count: allocations, multiplication gates, and the
list of constrained linear combinations. -/

/-- An R1CS wire: a committed input wire, one of the three wires of a
multiplication gate, or the constant-1 wire used for constant terms. -/
inductive BpVariable
  | committed (n : Nat)
  | mulLeft (n : Nat)
  | mulRight (n : Nat)
  | mulOutput (n : Nat)
  | one
deriving DecidableEq

/-- A Bulletproofs `LinearCombination`: a term list `Σ cᵢ·wᵢ` (the constant
term rides on the `one` wire). -/
abbrev LinComb := List (BpVariable × Scalar)

/-- `Variable → LinearCombination` conversion (`.into()`). -/
def lcOfVar (v : BpVariable) : LinComb := [(v, (1 : Scalar))]

/-- Negate every coefficient. -/
def lcNegTerms (l : LinComb) : LinComb := l.map (fun t => (t.1, -t.2))

/-- `LC + LC`: concatenate term lists. -/
def lcAdd (a b : LinComb) : LinComb := a ++ b

/-- `LC - LC`. -/
def lcSub (a b : LinComb) : LinComb := a ++ lcNegTerms b

/-- `LC + Scalar`: append a constant term. -/
def lcAddScalar (a : LinComb) (s : Scalar) : LinComb := a ++ [(BpVariable.one, s)]

/-- `LC - Scalar`. -/
def lcSubScalar (a : LinComb) (s : Scalar) : LinComb := a ++ [(BpVariable.one, -s)]

/-- `LC * Scalar`: scale every coefficient. -/
def lcScale (a : LinComb) (s : Scalar) : LinComb := a.map (fun t => (t.1, t.2 * s))

/-- The constraint-system state. -/
structure ConstraintSys where
  numAllocated : Nat
  numMultipliers : Nat
  constraints : List LinComb
deriving DecidableEq

/-- `cs.allocate(assignment)`: a fresh committed wire (the assignment feeds
the external prover and does not influence wire identity). -/
def csAllocate (cs : ConstraintSys) (_assignment : Option Scalar) :
    BpVariable × ConstraintSys :=
  (.committed cs.numAllocated, { cs with numAllocated := cs.numAllocated + 1 })

/-- `cs.multiply(l, r)`: emit one multiplication gate, returning its three
wires. -/
def csMultiply (cs : ConstraintSys) (_l _r : LinComb) :
    (BpVariable × BpVariable × BpVariable) × ConstraintSys :=
  ((.mulLeft cs.numMultipliers, .mulRight cs.numMultipliers, .mulOutput cs.numMultipliers),
    { cs with numMultipliers := cs.numMultipliers + 1 })

/-- `cs.constrain(lc)`: assert that `lc` is zero. -/
def csConstrain (cs : ConstraintSys) (l : LinComb) : ConstraintSys :=
  { cs with constraints := cs.constraints ++ [l] }

/-! ### The per-node operand (`enum Node`, bulletproofs.rs lines 23-97) -/

/-- `Node`: a symbolic linear combination or a folded scalar constant. -/
inductive BpNode
  | linearCombination (l : LinComb)
  | scalar (s : Scalar)
deriving DecidableEq

/-- `Add for Node` (lines 41-54). -/
def nodeAdd : BpNode → BpNode → BpNode
  | .linearCombination x, .linearCombination y => .linearCombination (lcAdd x y)
  | .linearCombination x, .scalar y => .linearCombination (lcAddScalar x y)
  | .scalar x, .linearCombination y => .linearCombination (lcAddScalar y x)
  | .scalar x, .scalar y => .scalar (x + y)

/-- `Sub for Node` (lines 71-84); the `(Scalar, LC)` arm is `-y + x`. -/
def nodeSub : BpNode → BpNode → BpNode
  | .linearCombination x, .linearCombination y => .linearCombination (lcSub x y)
  | .linearCombination x, .scalar y => .linearCombination (lcSubScalar x y)
  | .scalar x, .linearCombination y => .linearCombination (lcAddScalar (lcNegTerms y) x)
  | .scalar x, .scalar y => .scalar (x - y)

/-- `Neg for Node` (lines 86-97). -/
def nodeNeg : BpNode → BpNode
  | .linearCombination x => .linearCombination (lcNegTerms x)
  | .scalar x => .scalar (-x)

/-- `Mul for Node` (lines 56-69): multiplying two linear combinations
outside a gate is the `panic!("Illegal operation.")` arm. -/
def nodeMul : BpNode → BpNode → Except BpError BpNode
  | .linearCombination _, .linearCombination _ => .error (.panicked "Illegal operation.")
  | .linearCombination x, .scalar y => .ok (.linearCombination (lcScale x y))
  | .scalar x, .linearCombination y => .ok (.linearCombination (lcScale y x))
  | .scalar x, .scalar y => .ok (.scalar (x * y))

/-! ### `gen_circuit` (bulletproofs.rs lines 144-314) -/

/-- The traversal state of `gen_circuit`: the operand table
(`BulletproofsCircuit::nodes`), the `unprocessed_child_count` vector, and
the constraint system being driven. -/
structure GenState where
  nodes : List (Option BpNode)
  childCount : List Nat
  cs : ConstraintSys
deriving DecidableEq

/-- The `ref_count` closure (lines 167-175): decrement the operand's
unprocessed-child count and clear its slot when the count reaches zero.
(The `usize` decrement underflows only on malformed graphs; it is modelled
by truncated `Nat` subtraction.) -/
def refCount (st : GenState) (idx : Nat) : GenState :=
  let c := st.childCount.getD idx 0 - 1
  let st' := { st with childCount := st.childCount.set idx c }
  if c = 0 then { st' with nodes := st'.nodes.set idx none } else st'

/-- Read `self.nodes[idx]`, panicking with the `dependency_not_found_msg`
message when the slot is empty (lines 177-178). -/
def getOperandNode (st : GenState) (idx : Nat) : Except BpError BpNode :=
  match st.nodes.getD idx none with
  | some v => .ok v
  | none => .error (.panicked ("traversal error: dependency " ++ toString idx ++ " not found"))

/-- The body of the `Constraint` operand loop (lines 277-301): constrain
`o - x` for a linear combination, compare scalars otherwise (the
`R1CSError::GadgetError` return), then `ref_count` the operand. -/
def constraintStep (x : Scalar) (st : GenState) (oIdx : Nat) : Except BpError GenState := do
  let o ← getOperandNode st oIdx
  let st1 ← match o with
    | .linearCombination l => pure { st with cs := csConstrain st.cs (lcSubScalar l x) }
    | .scalar s =>
        if x ≠ s then
          .error (.backendGadgetError
            ("Constant " ++ toString x.val ++ " does not equal " ++ toString s.val))
        else pure st
  pure (refCount st1 oIdx)

/-- The per-node visit of `gen_circuit` (lines 160-311), dispatching on the
operation exactly as the source `match` does. -/
def processNode (g : ZkpGraph) (getInput : Nat → Option Scalar) (st : GenState)
    (idx : Nat) : Except BpError GenState := do
  match g.ops[idx]? with
  | none => .error (.panicked "node not found")
  | some op =>
    match op with
    | .input x =>
        let (v, cs) := csAllocate st.cs (getInput x)
        pure { st with cs := cs,
                       nodes := st.nodes.set idx (some (.linearCombination (lcOfVar v))) }
    | .hiddenInput x => do
        let xs ← match x with
          | some b => do
              let s ← try_uint_to_scalar b
              pure (some s)
          | none => pure (none : Option Scalar)
        let (v, cs) := csAllocate st.cs xs
        pure { st with cs := cs,
                       nodes := st.nodes.set idx (some (.linearCombination (lcOfVar v))) }
    | .add => do
        let (l, r) ← getBinaryOperands g idx
        let left ← getOperandNode st l
        let right ← getOperandNode st r
        let st1 := { st with nodes := st.nodes.set idx (some (nodeAdd left right)) }
        pure (refCount (refCount st1 l) r)
    | .sub => do
        let (l, r) ← getBinaryOperands g idx
        let left ← getOperandNode st l
        let right ← getOperandNode st r
        let st1 := { st with nodes := st.nodes.set idx (some (nodeSub left right)) }
        pure (refCount (refCount st1 l) r)
    | .neg => do
        let l ← getUnaryOperand g idx
        let left ← getOperandNode st l
        let st1 := { st with nodes := st.nodes.set idx (some (nodeNeg left)) }
        pure (refCount st1 l)
    | .mul => do
        let (l, r) ← getBinaryOperands g idx
        let left ← getOperandNode st l
        let right ← getOperandNode st r
        let st1 ← match left, right with
          | .linearCombination x, .linearCombination y =>
              let ((_lw, _rw, o), cs) := csMultiply st.cs x y
              pure { st with cs := cs,
                             nodes := st.nodes.set idx (some (.linearCombination (lcOfVar o))) }
          | _, _ => do
              let v ← nodeMul left right
              pure { st with nodes := st.nodes.set idx (some v) }
        pure (refCount (refCount st1 l) r)
    | .constraint x => do
        let operands := getUnorderedOperands g idx
        let s ← try_uint_to_scalar x
        operands.foldlM (constraintStep s) st
    | .constant x => do
        let s ← try_uint_to_scalar x
        pure { st with nodes := st.nodes.set idx (some (.scalar s)) }

/-- The initial `gen_circuit` state: `BulletproofsCircuit::new(node_count)`
(all slots `None`), `unprocessed_child_count[i] = graph.neighbors(i).count()`
(lines 154-157), and an empty constraint system. -/
def initGenState (g : ZkpGraph) : GenState :=
  { nodes := List.replicate g.ops.length none
    childCount := (List.range g.ops.length).map (outDegree g)
    cs := ⟨0, 0, []⟩ }

/-- `gen_circuit` with an explicit visit order. -/
def genCircuitWith (g : ZkpGraph) (getInput : Nat → Option Scalar)
    (order : List Nat) : Except BpError GenState :=
  order.foldlM (processNode g getInput) (initGenState g)

/-- Modelled from the spec (§4.4): `forward_traverse` of
`sunscreen_compiler_common` — Kahn's algorithm seeded with the zero-in-degree
nodes in insertion order, decrementing each outgoing neighbor and enqueueing
it when its pending count reaches zero. -/
def kahnGo (g : ZkpGraph) : Nat → List Nat → List Nat → List Nat → List Nat
  | 0, _, _, acc => acc
  | _ + 1, _, [], acc => acc
  | fuel + 1, counts, n :: rest, acc =>
      let step := (outEdges g n).foldl
        (fun (s : List Nat × List Nat) e =>
          let c := s.1.getD e.target 0 - 1
          (s.1.set e.target c, if c = 0 then s.2 ++ [e.target] else s.2))
        (counts, rest)
      kahnGo g fuel step.1 step.2 (acc ++ [n])

/-- The visit order of the forward traversal. -/
def forwardTraverseOrder (g : ZkpGraph) : List Nat :=
  let counts := (List.range g.ops.length).map (inDegree g)
  let ready := (List.range g.ops.length).filter (fun n => inDegree g n = 0)
  kahnGo g g.ops.length counts ready []

/-- `gen_circuit` (lines 144-314): drive the forward traversal from the
fresh state, returning the final state. -/
def genCircuit (g : ZkpGraph) (getInput : Nat → Option Scalar) : Except BpError GenState :=
  genCircuitWith g getInput (forwardTraverseOrder g)

/-- The number of `cs.constrain` calls a successful `gen_circuit` run emits. -/
def emittedConstrainCount (g : ZkpGraph) (getInput : Nat → Option Scalar) :
    Except BpError Nat :=
  (genCircuit g getInput).map (fun st => st.cs.constraints.length)

/-! ### `constraint_count` (bulletproofs.rs lines 338-371) -/

/-- Is the operation a `Constant`? (the static test `constraint_count`
applies to `Mul` operands). -/
def isConstantOp : ZkOp → Bool
  | .constant _ => true
  | _ => false

/-- One step of the `constraint_count` scan, carrying `(count, input_count)`
exactly as the source loop does. -/
def constraintCountStep (g : ZkpGraph) (st : Nat × Nat) (i : Nat) :
    Except BpError (Nat × Nat) :=
  match g.ops[i]? with
  | none => .error (.panicked "node not found")
  | some op =>
    match op with
    | .input _ =>
        .ok (if st.2 % 2 = 0 then st.1 + 1 else st.1, st.2 + 1)
    | .constraint _ => .ok (st.1 + 1, st.2)
    | .mul => do
        let (l, r) ← getBinaryOperands g i
        match g.ops[l]?, g.ops[r]? with
        | none, _ => .error (.panicked "node not found")
        | _, none => .error (.panicked "node not found")
        | some lop, some rop =>
            if isConstantOp lop || isConstantOp rop then .ok st
            else .ok (st.1 + 1, st.2)
    | _ => .ok st

/-- `constraint_count` (lines 338-371): scan the nodes in index order. -/
def constraint_count (g : ZkpGraph) : Except BpError Nat := do
  let st ← (List.range g.ops.length).foldlM (constraintCountStep g) ((0 : Nat), (0 : Nat))
  pure st.1

/-! ### The spec-side gate-count formula and structural predicates -/

/-- Node `i` is an `Input` node. -/
def countsAsInput (g : ZkpGraph) (i : Nat) : Bool :=
  match g.ops[i]? with
  | some (.input _) => true
  | _ => false

/-- Node `i` is a `Constraint` node. -/
def countsAsConstraint (g : ZkpGraph) (i : Nat) : Bool :=
  match g.ops[i]? with
  | some (.constraint _) => true
  | _ => false

/-- Node `i` is a `Mul` node both of whose operands are non-`Constant`. -/
def countsAsNonConstMul (g : ZkpGraph) (i : Nat) : Bool :=
  match g.ops[i]? with
  | some .mul =>
    (match getBinaryOperands g i with
     | .ok (l, r) =>
       (match g.ops[l]?, g.ops[r]? with
        | some lop, some rop => !isConstantOp lop && !isConstantOp rop
        | _, _ => false)
     | .error _ => false)
  | _ => false

/-- The gate-count rules in the spec's words (§4.7): one per pair of inputs
(`⌈inputs/2⌉`), one per `Constraint`, one per `Mul` with both operands
non-constant. -/
def specConstraintCount (g : ZkpGraph) : Nat :=
  ((List.range g.ops.length).countP (countsAsInput g) + 1) / 2
    + (List.range g.ops.length).countP (countsAsConstraint g)
    + (List.range g.ops.length).countP (countsAsNonConstMul g)

/-! ### Well-formedness and the slot-release invariant -/

/-- Does the operation at node `i` write its own operand slot?  Every
`gen_circuit` arm except `Constraint` stores a value at `idx`. -/
def storesAt (g : ZkpGraph) (i : Nat) : Bool :=
  match g.ops[i]? with
  | some (.constraint _) => false
  | some _ => true
  | none => false

/-- Number of outgoing edges of `i` whose consumer is not yet processed. -/
def edgesToUnprocessed (g : ZkpGraph) (P : List Nat) (i : Nat) : Nat :=
  (outEdges g i).countP (fun e => decide (e.target ∉ P))

/-- Number of incoming edges of `c` coming from `i`. -/
def sourceCount (g : ZkpGraph) (c i : Nat) : Nat :=
  (inEdges g c).countP (fun e => decide (e.source = i))

/-- Edge-role well-formedness of a binary node (§3: exactly one `Left`, one
`Right` and nothing else). -/
def binaryRolesOk (g : ZkpGraph) (i : Nat) : Bool :=
  decide (((inEdges g i).filter (fun e => e.info = .left)).length = 1) &&
  decide (((inEdges g i).filter (fun e => e.info = .right)).length = 1) &&
  decide (((inEdges g i).filter (fun e => e.info = .unordered)).length = 0)

/-- Edge-role well-formedness of node `i` (§3): leaves have no incoming
edges, binary nodes one `Left` and one `Right`, `Neg` exactly one edge,
`Constraint` only `Unordered` edges. -/
def rolesOkAt (g : ZkpGraph) (i : Nat) : Bool :=
  match g.ops[i]? with
  | none => true
  | some (.input _) => (inEdges g i).isEmpty
  | some (.hiddenInput _) => (inEdges g i).isEmpty
  | some (.constant _) => (inEdges g i).isEmpty
  | some .add => binaryRolesOk g i
  | some .sub => binaryRolesOk g i
  | some .mul => binaryRolesOk g i
  | some .neg => decide ((inEdges g i).length = 1)
  | some (.constraint _) => (inEdges g i).all (fun e => decide (e.info = .unordered))

/-- A well-formed executable graph: edges stay in range, every producer
stores a value (no `Constraint` node feeds another node), and edge roles
match each node's arity. -/
def WfGraph (g : ZkpGraph) : Prop :=
  (∀ e ∈ g.edges,
      e.source < g.ops.length ∧ e.target < g.ops.length ∧ storesAt g e.source = true) ∧
  (∀ i, i < g.ops.length → rolesOkAt g i = true)

/-- A topological visit order: a permutation of the node indices in which
every edge's source appears strictly before its target. -/
def IsTopoOrder (g : ZkpGraph) (order : List Nat) : Prop :=
  order.Perm (List.range g.ops.length) ∧
  ∀ e ∈ g.edges, order.indexOf e.source < order.indexOf e.target

/-- The reference-counting invariant of `gen_circuit` after the nodes in `P`
have been processed: every `unprocessed_child_count` entry equals the number
of outgoing edges towards unprocessed consumers, and a slot is occupied
exactly when its node has been processed, stores a value, and either has no
consumers at all or still has an unprocessed one. -/
def SlotInv (g : ZkpGraph) (P : List Nat) (st : GenState) : Prop :=
  st.nodes.length = g.ops.length ∧
  st.childCount.length = g.ops.length ∧
  ∀ i, i < g.ops.length →
    (st.childCount.getD i 0 = edgesToUnprocessed g P i ∧
      ((st.nodes.getD i none).isSome = true ↔
        (i ∈ P ∧ storesAt g i = true ∧
          (outDegree g i = 0 ∨ 0 < edgesToUnprocessed g P i))))

/-! ### Concrete ZKP graphs used by the theorems -/

/-- A `BigInt` holding a small constant. -/
def smallBigInt (n : Nat) : BigInt := ⟨[n, 0, 0, 0, 0, 0, 0, 0]⟩

/-- A graph holding a single `Input(0)` node. -/
def gInputOnly : ZkpGraph := ⟨[.input 0], []⟩

/-- The graph of the repository's `can_run_simple_proof` test (bulletproofs.rs
lines 648-677): three inputs, `m = i0 * i1`, `a = i2 + m`, `Constraint(42)`
over `{a}`. -/
def gS1 : ZkpGraph :=
  ⟨[.input 0, .input 1, .input 2, .mul, .add, .constraint (smallBigInt 42)],
   [⟨0, 3, .left⟩, ⟨1, 3, .right⟩, ⟨2, 4, .left⟩, ⟨3, 4, .right⟩, ⟨4, 5, .unordered⟩]⟩

/-- A graph constraining the constant 5 to equal 7: one `Constant(5)` node
feeding a `Constraint(7)` node. -/
def gMismatch : ZkpGraph :=
  ⟨[.constant (smallBigInt 5), .constraint (smallBigInt 7)], [⟨0, 1, .unordered⟩]⟩

/-- The verifier-side input provider (`|_| None`). -/
def getInputNone : Nat → Option Scalar := fun _ => none

/-- Equality of `Except` results is decidable when both components' is. -/
instance {ε α : Type} [DecidableEq ε] [DecidableEq α] : DecidableEq (Except ε α)
  | .ok a, .ok b => if h : a = b then .isTrue (by rw [h]) else .isFalse (by simp [h])
  | .ok _, .error _ => .isFalse (by simp)
  | .error _, .ok _ => .isFalse (by simp)
  | .error a, .error b => if h : a = b then .isTrue (by rw [h]) else .isFalse (by simp [h])

/-- Did a `gen_circuit` run end with every operand-table slot cleared? -/
def slotsAllNone : Except BpError GenState → Bool
  | .ok st => st.nodes.all Option.isNone
  | .error _ => false

/-- A mid-traversal `gen_circuit` state over `gS1`: the three inputs hold
their allocated wires, nodes 3-5 are still pending. -/
def stMulDemo : GenState :=
  ⟨[some (.linearCombination [(.committed 0, 1)]),
    some (.linearCombination [(.committed 1, 1)]),
    some (.linearCombination [(.committed 2, 1)]),
    none, none, none],
   [1, 1, 1, 1, 1, 0], ⟨3, 0, []⟩⟩

/-- The linear combination of the first committed wire. -/
def lcW0 : LinComb := [(.committed 0, 1)]

/-- The linear combination of the second committed wire. -/
def lcW1 : LinComb := [(.committed 1, 1)]

/-- A mid-traversal state over `gS1` where node 0 holds a wire and node 1 a
folded scalar: exercises the `(LC, Scalar)` fold arm. -/
def stLcScalarDemo : GenState :=
  ⟨[some (.linearCombination [(.committed 0, 1)]),
    some (.scalar 3),
    some (.linearCombination [(.committed 2, 1)]),
    none, none, none],
   [1, 1, 1, 1, 1, 0], ⟨3, 0, []⟩⟩

/-- A mid-traversal state over `gS1` where node 0 holds a folded scalar and
node 1 a wire: exercises the `(Scalar, LC)` fold arm. -/
def stScalarLcDemo : GenState :=
  ⟨[some (.scalar 2),
    some (.linearCombination [(.committed 1, 1)]),
    some (.linearCombination [(.committed 2, 1)]),
    none, none, none],
   [1, 1, 1, 1, 1, 0], ⟨3, 0, []⟩⟩

/-- A mid-traversal state over `gS1` where both operands of the `Mul` node
hold folded scalars: exercises the `(Scalar, Scalar)` fold arm. -/
def stScalarDemo : GenState :=
  ⟨[some (.scalar 2),
    some (.scalar 3),
    some (.linearCombination [(.committed 2, 1)]),
    none, none, none],
   [1, 1, 1, 1, 1, 0], ⟨3, 0, []⟩⟩

/-- A mid-traversal state over `gMismatch`: node 0 holds the folded scalar
constant 5. -/
def stConDemo : GenState := ⟨[some (.scalar 5), none], [1, 0], ⟨0, 0, []⟩⟩

/-- The invariant holding *during* the processing of node `c`, after the
consumption events in `consumed` (one per already-`ref_count`ed operand
occurrence) have fired: every node other than `c` tracks its
unprocessed-consumer count minus its consumed events, `c`'s own counter is
untouched, and `c`'s slot holds `vc`. -/
def MidInvAt (g : ZkpGraph) (P : List Nat) (c : Nat) (consumed : List Nat)
    (vc : Option BpNode) (st : GenState) : Prop :=
  st.nodes.length = g.ops.length ∧
  st.childCount.length = g.ops.length ∧
  st.nodes.getD c none = vc ∧
  st.childCount.getD c 0 = edgesToUnprocessed g P c ∧
  ∀ i, i < g.ops.length → i ≠ c →
    (st.childCount.getD i 0 + consumed.count i = edgesToUnprocessed g P i ∧
      ((st.nodes.getD i none).isSome = true ↔
        (i ∈ P ∧ storesAt g i = true ∧
          (outDegree g i = 0 ∨ consumed.count i < edgesToUnprocessed g P i))))

/-! ## Theorems -/

/-- Setting the freshly appended slot of a bump arena and reading it back
yields the written slice. -/
theorem arena_set_getD (l : List (List Nat)) (x y : List Nat) :
    ((l ++ [x]).set l.length y).getD l.length [] = y := by
  induction l with
  | nil => rfl
  | cons a t ih => exact ih

/-- Claim C10: `ProgramNode::new(ids)` copies the caller's slice into the
thread-local bump arena and returns a handle whose `ids` field resolves to a
slice of the same length with the same element sequence; the arena gains
exactly the one allocation. -/
theorem c10_program_node_new_copies (ids : List Nat) (arena : Arena) :
    ((ProgramNode.new ids arena).1.read (ProgramNode.new ids arena).2.ids = ids) ∧
    ((ProgramNode.new ids arena).1.read (ProgramNode.new ids arena).2.ids).length = ids.length ∧
    (ProgramNode.new ids arena).1.slices.length = arena.slices.length + 1 := by
  have h : (ProgramNode.new ids arena).1.read (ProgramNode.new ids arena).2.ids = ids := by
    show ((arena.slices ++ [ids]).set arena.slices.length ids).getD arena.slices.length [] = ids
    exact arena_set_getD _ _ _
  refine ⟨h, by rw [h], ?_⟩
  show ((arena.slices ++ [ids]).set arena.slices.length ids).length = arena.slices.length + 1
  simp

/-- Claim C9: `TypeName` serializes to `"<name>,<semver>"`; deserialization
succeeds exactly on strings with exactly one comma whose second component
parses as a semantic version; and the `{name:"foo::Bar", version:42.24.6}`
example round-trips through `"foo::Bar,42.24.6"`. -/
theorem c9_typename_serde :
    (∀ t : TypeNameInfo, serializeTypeName t = t.name ++ "," ++ t.version.toString) ∧
    (∀ s : String, (deserializeTypeName s).isOk = true ↔
      ((splitComma s).length = 2 ∧
        (parseVersion ((splitComma s).getD 1 "")).isOk = true)) ∧
    serializeTypeName ⟨"foo::Bar", ⟨42, 24, 6⟩⟩ = "foo::Bar,42.24.6" ∧
    deserializeTypeName "foo::Bar,42.24.6" = .ok ⟨"foo::Bar", ⟨42, 24, 6⟩⟩ := by
  refine ⟨fun t => rfl, ?_, by decide, by decide⟩
  intro s
  by_cases hlen : (splitComma s).length = 2
  · obtain ⟨a, b, hab⟩ : ∃ a b, splitComma s = [a, b] := by
      rcases hsp : splitComma s with _ | ⟨a, _ | ⟨b, _ | ⟨c, r⟩⟩⟩ <;>
        rw [hsp] at hlen <;> simp_all
    simp only [deserializeTypeName, visitStr, hlen, hab]
    simp only [ne_eq, not_true_eq_false, if_false, Except.bind, Bind.bind]
    cases hp : parseVersion b <;> simp [hab, hp, Except.isOk, Except.toBool]
  · simp [deserializeTypeName, visitStr, hlen, Except.isOk, Except.toBool, Bind.bind, Except.bind]

/-- Claim C3 (code bug): the `InputCiphertext(id)` arm of
`run_program_unchecked` stores the borrowed input at `data[id]` — the input
index — not at the visited node's own slot.  Visiting node 0 of a graph whose
node 0 is `InputCiphertext(1)` leaves slot 0 empty and fills slot 1, and on
the repository's own `simple_add` test graph (both inputs carrying id 0) the
`Add` node's read of slot 1 panics with "No ciphertext found for node 1". -/
theorem c3_input_store_wrong_slot :
    fheVisit gSwap CtVal.input false (initTable 2) 0 =
      .ok [none, some (.borrowed (.input 1))] ∧
    runVisits gTestAdd CtVal.input [0, 1, 2] (initTable 4) = .error (.noCiphertext 1) :=
  ⟨rfl, rfl⟩

/-- Claim C1 (code bug): `parallel_traverse` initializes each dependency
counter to the **outgoing** neighbor count, so the ready queue is seeded with
the sink node 3 — whose parents are all unvisited — and the run visits only
node 3 before blocking; in particular for the edge (2, 3) the consumer's read
of node 2's operand slot happens with the slot still empty (the
`get_ciphertext` panic), the opposite of the claimed write-before-read
order. -/
theorem c1_parallel_traverse_order_violated :
    (initWorkerState gAdd4).queue = [3] ∧
    workerRun gAdd4 10 (initWorkerState gAdd4) =
      .blockedOnRecv ⟨[], [1, 1, 1, 0], [3], 4⟩ ∧
    (2, 3) ∈ gAdd4.edges ∧ (2 : Nat) ∉ [(3 : Nat)] ∧
    fheVisit gAdd4 CtVal.input false (initTable 4) 3 = .error (.noCiphertext 2) := by
  exact ⟨by decide, by decide, by decide, by decide, rfl⟩

/-- Claim C2 (code bug): the worker's count-decrement phase is dead code —
`updated_count` is initialized to `false` and the `while updated_count` guard
fails immediately, so `items_remaining` is never decremented and the worker
never takes the `return` exit; consequently no amount of fuel makes a worker
of `parallel_traverse` finish, and on the one-node program the worker visits
the node and then blocks forever on the empty channel with `items_remaining`
still 1. -/
theorem c2_worker_pool_never_terminates :
    (∀ fuel items, countCheckLoop (fuel + 1) false items = some (items, false)) ∧
    (∀ fuel st, (workerRun irOne fuel st).isFinished = false) ∧
    workerRun irOne 2 (initWorkerState irOne) = .blockedOnRecv ⟨[], [0], [0], 1⟩ := by
  have h1 : ∀ fuel items, countCheckLoop (fuel + 1) false items = some (items, false) :=
    fun _ _ => rfl
  refine ⟨h1, ?_, by decide⟩
  intro fuel
  induction fuel with
  | zero => intro st; rfl
  | succ n ih =>
    intro st
    simp only [workerRun, h1]
    cases hq : st.queue with
    | nil => rfl
    | cons m rest =>
      simp only [FheIr.outNeighbors, irOne, List.filter_nil, List.map_nil, List.foldl_nil]
      exact ih _

/-- Pop one element off a list of known positive length. -/
theorem len_cons_destruct {α : Type} (l : List α) (n : Nat) (h : l.length = n + 1) :
    ∃ a t, l = a :: t ∧ t.length = n := by
  cases l with
  | nil => simp at h
  | cons a t => exact ⟨a, t, rfl, by simpa using h⟩

/-- Claim C7: for every well-formed `BigInt` `x`, if `x < FIELD_MODULUS` then
`Scalar::try_from(x)` succeeds and converting the scalar back yields exactly
`x`; if `x ≥ FIELD_MODULUS` the conversion fails with `OutOfRange`. -/
theorem c7_scalar_roundtrip (b : BigInt) (hwf : b.wf) :
    (b.val < FIELD_MODULUS.val →
      ∃ s, try_uint_to_scalar b = .ok s ∧ scalar_to_uint s = b) ∧
    (FIELD_MODULUS.val ≤ b.val →
      try_uint_to_scalar b = .error (.outOfRange (toString b.val))) := by
  obtain ⟨ws⟩ := b
  obtain ⟨hlen, hbound⟩ := hwf
  obtain ⟨w0, t1, rfl, hl1⟩ := len_cons_destruct ws 7 hlen
  obtain ⟨w1, t2, rfl, hl2⟩ := len_cons_destruct t1 6 hl1
  obtain ⟨w2, t3, rfl, hl3⟩ := len_cons_destruct t2 5 hl2
  obtain ⟨w3, t4, rfl, hl4⟩ := len_cons_destruct t3 4 hl3
  obtain ⟨w4, t5, rfl, hl5⟩ := len_cons_destruct t4 3 hl4
  obtain ⟨w5, t6, rfl, hl6⟩ := len_cons_destruct t5 2 hl5
  obtain ⟨w6, t7, rfl, hl7⟩ := len_cons_destruct t6 1 hl6
  obtain ⟨w7, t8, rfl, hl8⟩ := len_cons_destruct t7 0 hl7
  obtain rfl := List.length_eq_zero.mp hl8
  have h0 := hbound w0 (by simp)
  have h1 := hbound w1 (by simp)
  have h2 := hbound w2 (by simp)
  have h3 := hbound w3 (by simp)
  have h4 := hbound w4 (by simp)
  have h5 := hbound w5 (by simp)
  have h6 := hbound w6 (by simp)
  have h7 := hbound w7 (by simp)
  have hB : wordSize = 18446744073709551616 := by norm_num [wordSize]
  have hL : fieldModulusNat =
      7237005577332262213973186563042994240857116359379907606001950938285454250989 := by
    norm_num [fieldModulusNat]
  have hFv : FIELD_MODULUS.val = fieldModulusNat := by decide
  have hval : BigInt.val ⟨[w0, w1, w2, w3, w4, w5, w6, w7]⟩ =
      w0 + wordSize * (w1 + wordSize * (w2 + wordSize * (w3 + wordSize *
        (w4 + wordSize * (w5 + wordSize * (w6 + wordSize * (w7 + wordSize * 0))))))) := rfl
  have hlv : listVal [w0, w1, w2, w3] =
      w0 + wordSize * (w1 + wordSize * (w2 + wordSize * (w3 + wordSize * 0))) := rfl
  rw [hB] at h0 h1 h2 h3 h4 h5 h6 h7
  constructor
  · intro hlt
    rw [hFv, hL, hval, hB] at hlt
    have hz4 : w4 = 0 := by omega
    have hz5 : w5 = 0 := by omega
    have hz6 : w6 = 0 := by omega
    have hz7 : w7 = 0 := by omega
    subst hz4; subst hz5; subst hz6; subst hz7
    have hlow : listVal [w0, w1, w2, w3] < fieldModulusNat := by
      rw [hL, hlv, hB]; omega
    have hv : ((listVal [w0, w1, w2, w3] : Nat) : Scalar).val = listVal [w0, w1, w2, w3] :=
      ZMod.val_cast_of_lt hlow
    refine ⟨((listVal [w0, w1, w2, w3] : Nat) : Scalar), ?_, ?_⟩
    · simp [try_uint_to_scalar, scalarFromCanonical, hlow]
    · simp only [scalar_to_uint, hv]
      refine congrArg BigInt.mk ?_
      have e0 : listVal [w0, w1, w2, w3] % wordSize = w0 := by rw [hlv, hB]; omega
      have e1 : listVal [w0, w1, w2, w3] / wordSize % wordSize = w1 := by rw [hlv, hB]; omega
      have e2 : listVal [w0, w1, w2, w3] / wordSize ^ 2 % wordSize = w2 := by
        rw [hlv, hB]; norm_num; omega
      have e3 : listVal [w0, w1, w2, w3] / wordSize ^ 3 % wordSize = w3 := by
        rw [hlv, hB]; norm_num; omega
      rw [e0, e1, e2, e3]
  · intro hge
    rw [hFv, hL, hval, hB] at hge
    cases hall : ([w4, w5, w6, w7].all (fun w => decide (w = 0))) with
    | false => simp [try_uint_to_scalar, hall]
    | true =>
      have hz : w4 = 0 ∧ w5 = 0 ∧ w6 = 0 ∧ w7 = 0 := by simpa using hall
      obtain ⟨hz4, hz5, hz6, hz7⟩ := hz
      subst hz4; subst hz5; subst hz6; subst hz7
      have hhigh : ¬ listVal [w0, w1, w2, w3] < fieldModulusNat := by
        rw [hL, hlv, hB]; omega
      simp [try_uint_to_scalar, scalarFromCanonical, hhigh]

/-- Witness for C7 at the repository's own test value
`0x1234567890abcdef` (bulletproofs.rs lines 591-598). -/
theorem c7_scalar_roundtrip_witness :
    BigInt.wf ⟨[0x1234567890abcdef, 0, 0, 0, 0, 0, 0, 0]⟩ ∧
    ((BigInt.val ⟨[0x1234567890abcdef, 0, 0, 0, 0, 0, 0, 0]⟩ < FIELD_MODULUS.val →
        ∃ s, try_uint_to_scalar ⟨[0x1234567890abcdef, 0, 0, 0, 0, 0, 0, 0]⟩ = .ok s ∧
          scalar_to_uint s = ⟨[0x1234567890abcdef, 0, 0, 0, 0, 0, 0, 0]⟩) ∧
      (FIELD_MODULUS.val ≤ BigInt.val ⟨[0x1234567890abcdef, 0, 0, 0, 0, 0, 0, 0]⟩ →
        try_uint_to_scalar ⟨[0x1234567890abcdef, 0, 0, 0, 0, 0, 0, 0]⟩ =
          .error (.outOfRange
            (toString (BigInt.val ⟨[0x1234567890abcdef, 0, 0, 0, 0, 0, 0, 0]⟩))))) :=
  ⟨by unfold BigInt.wf; decide,
    c7_scalar_roundtrip ⟨[0x1234567890abcdef, 0, 0, 0, 0, 0, 0, 0]⟩ (by unfold BigInt.wf; decide)⟩

/-- The running state of the `constraint_count` scan: starting from
`(count, input_count) = (c, k)`, a successful scan over any index list adds
the input-pairing term (with the running parity `k`), the `Constraint`-node
count, and the non-constant-`Mul` count. -/
theorem constraintCount_fold (g : ZkpGraph) (l : List Nat) (c k : Nat) (res : Nat × Nat)
    (h : l.foldlM (constraintCountStep g) (c, k) = .ok res) :
    res.1 = c + (l.countP (countsAsInput g) + 1 - k % 2) / 2
      + l.countP (countsAsConstraint g) + l.countP (countsAsNonConstMul g) ∧
    res.2 = k + l.countP (countsAsInput g) := by
  induction l generalizing c k with
  | nil =>
    simp only [List.foldlM_nil, pure, Except.pure, Except.ok.injEq] at h
    subst h
    simp only [List.countP_nil]
    omega
  | cons i tl ih =>
    rw [List.foldlM_cons] at h
    cases hstep : constraintCountStep g (c, k) i with
    | error e => rw [hstep] at h; simp [Bind.bind, Except.bind] at h
    | ok s =>
      rw [hstep] at h
      simp only [Bind.bind, Except.bind] at h
      have hs : tl.foldlM (constraintCountStep g) (s.1, s.2) = .ok res := by
        simpa using h
      obtain ⟨ih1, ih2⟩ := ih s.1 s.2 hs
      cases hop : g.ops[i]? with
      | none => simp [constraintCountStep, hop] at hstep
      | some op =>
        have hcip : ∀ y, g.ops[i]? = some (.input y) → countsAsInput g i = true :=
          fun y hy => by simp [countsAsInput, hy]
        cases op with
        | input x =>
          have hci : countsAsInput g i = true := hcip x hop
          have hcc : countsAsConstraint g i = false := by simp [countsAsConstraint, hop]
          have hcm : countsAsNonConstMul g i = false := by simp [countsAsNonConstMul, hop]
          by_cases hk : k % 2 = 0
          · simp only [constraintCountStep, hop, hk, if_true, Except.ok.injEq] at hstep
            obtain rfl := hstep.symm
            simp only at ih1 ih2
            simp [List.countP_cons, hci, hcc, hcm]
            omega
          · simp only [constraintCountStep, hop, if_neg hk, Except.ok.injEq] at hstep
            obtain rfl := hstep.symm
            simp only at ih1 ih2
            simp [List.countP_cons, hci, hcc, hcm]
            omega
        | constraint x =>
          simp only [constraintCountStep, hop, Except.ok.injEq] at hstep
          have hci : countsAsInput g i = false := by simp [countsAsInput, hop]
          have hcc : countsAsConstraint g i = true := by simp [countsAsConstraint, hop]
          have hcm : countsAsNonConstMul g i = false := by simp [countsAsNonConstMul, hop]
          obtain rfl := hstep.symm
          simp only at ih1 ih2
          simp [List.countP_cons, hci, hcc, hcm]
          omega
        | mul =>
          have hci : countsAsInput g i = false := by simp [countsAsInput, hop]
          have hcc : countsAsConstraint g i = false := by simp [countsAsConstraint, hop]
          simp only [constraintCountStep, hop] at hstep
          cases hbo : getBinaryOperands g i with
          | error e => rw [hbo] at hstep; simp [Bind.bind, Except.bind] at hstep
          | ok lr =>
            obtain ⟨l₁, r₁⟩ := lr
            rw [hbo] at hstep
            simp only [Bind.bind, Except.bind] at hstep
            cases hol : g.ops[l₁]? with
            | none => simp [hol] at hstep
            | some lop =>
              cases hor : g.ops[r₁]? with
              | none => simp [hol, hor] at hstep
              | some rop =>
                cases hconst : (isConstantOp lop || isConstantOp rop) with
                | true =>
                  simp only [hol, hor, hconst, if_true, Except.ok.injEq] at hstep
                  have hcm : countsAsNonConstMul g i = false := by
                    simp only [countsAsNonConstMul, hop, hbo, hol, hor]
                    rw [← Bool.not_or, hconst]
                    rfl
                  obtain rfl := hstep.symm
                  simp only at ih1 ih2
                  simp [List.countP_cons, hci, hcc, hcm]
                  omega
                | false =>
                  simp only [hol, hor, hconst, Bool.false_eq_true, if_false,
                    Except.ok.injEq] at hstep
                  have hcm : countsAsNonConstMul g i = true := by
                    simp only [countsAsNonConstMul, hop, hbo, hol, hor]
                    rw [← Bool.not_or, hconst]
                    rfl
                  obtain rfl := hstep.symm
                  simp only at ih1 ih2
                  simp [List.countP_cons, hci, hcc, hcm]
                  omega
        | hiddenInput x =>
          simp only [constraintCountStep, hop, Except.ok.injEq] at hstep
          have hci : countsAsInput g i = false := by simp [countsAsInput, hop]
          have hcc : countsAsConstraint g i = false := by simp [countsAsConstraint, hop]
          have hcm : countsAsNonConstMul g i = false := by simp [countsAsNonConstMul, hop]
          obtain rfl := hstep.symm
          simp only at ih1 ih2
          simp [List.countP_cons, hci, hcc, hcm]
          omega
        | constant x =>
          simp only [constraintCountStep, hop, Except.ok.injEq] at hstep
          have hci : countsAsInput g i = false := by simp [countsAsInput, hop]
          have hcc : countsAsConstraint g i = false := by simp [countsAsConstraint, hop]
          have hcm : countsAsNonConstMul g i = false := by simp [countsAsNonConstMul, hop]
          obtain rfl := hstep.symm
          simp only at ih1 ih2
          simp [List.countP_cons, hci, hcc, hcm]
          omega
        | add =>
          simp only [constraintCountStep, hop, Except.ok.injEq] at hstep
          have hci : countsAsInput g i = false := by simp [countsAsInput, hop]
          have hcc : countsAsConstraint g i = false := by simp [countsAsConstraint, hop]
          have hcm : countsAsNonConstMul g i = false := by simp [countsAsNonConstMul, hop]
          obtain rfl := hstep.symm
          simp only at ih1 ih2
          simp [List.countP_cons, hci, hcc, hcm]
          omega
        | sub =>
          simp only [constraintCountStep, hop, Except.ok.injEq] at hstep
          have hci : countsAsInput g i = false := by simp [countsAsInput, hop]
          have hcc : countsAsConstraint g i = false := by simp [countsAsConstraint, hop]
          have hcm : countsAsNonConstMul g i = false := by simp [countsAsNonConstMul, hop]
          obtain rfl := hstep.symm
          simp only at ih1 ih2
          simp [List.countP_cons, hci, hcc, hcm]
          omega
        | neg =>
          simp only [constraintCountStep, hop, Except.ok.injEq] at hstep
          have hci : countsAsInput g i = false := by simp [countsAsInput, hop]
          have hcc : countsAsConstraint g i = false := by simp [countsAsConstraint, hop]
          have hcm : countsAsNonConstMul g i = false := by simp [countsAsNonConstMul, hop]
          obtain rfl := hstep.symm
          simp only at ih1 ih2
          simp [List.countP_cons, hci, hcc, hcm]
          omega

/-- Claim C4 (amended): the `constraint_count` pre-pass computes
`⌈#Input/2⌉ + #Constraint + #(Mul with both operand nodes non-Constant)` —
the per-operation rules the claim lists — whenever it succeeds.  (It does
*not* in general equal the number of `constrain` calls `gen_circuit` emits;
see the counterexample.) -/
theorem c4_constraint_count_formula (g : ZkpGraph) (c : Nat)
    (h : constraint_count g = .ok c) : c = specConstraintCount g := by
  unfold constraint_count at h
  cases hf : (List.range g.ops.length).foldlM (constraintCountStep g) ((0 : Nat), (0 : Nat)) with
  | error e => rw [hf] at h; simp [Bind.bind, Except.bind] at h
  | ok st =>
    rw [hf] at h
    simp only [Bind.bind, Except.bind, pure, Except.pure, Except.ok.injEq] at h
    obtain ⟨h1, _⟩ := constraintCount_fold g _ 0 0 st hf
    rw [← h, h1]
    unfold specConstraintCount
    omega

/-- Counterexample to C4 as stated: on the one-node graph holding a single
`Input(0)`, `constraint_count` returns 1 (the input-pairing term) while a
successful `gen_circuit` run emits 0 `constrain` calls; the two quantities
differ. -/
theorem c4_count_mismatch_cex :
    constraint_count gInputOnly = .ok 1 ∧
    emittedConstrainCount gInputOnly getInputNone = .ok 0 ∧
    constraint_count gInputOnly ≠ emittedConstrainCount gInputOnly getInputNone :=
  ⟨by decide, by decide, by decide⟩

/-- Witness for the amended C4 on the repository's own test graph (three
inputs, one `Mul` of two inputs, one `Add`, one `Constraint`):
`constraint_count` returns `⌈3/2⌉ + 1 + 1 = 4`. -/
theorem c4_constraint_count_formula_witness :
    constraint_count gS1 = .ok 4 ∧ (4 : Nat) = specConstraintCount gS1 :=
  ⟨by decide, c4_constraint_count_formula gS1 4 (by decide)⟩

/-- Reading a slot other than the one just set is unchanged. -/
theorem getD_set_ne {α : Type} (l : List α) (i j : Nat) (a d : α) (h : j ≠ i) :
    (l.set i a).getD j d = l.getD j d := by
  induction l generalizing i j with
  | nil => rfl
  | cons hd tl ih =>
    cases i with
    | zero =>
      cases j with
      | zero => exact absurd rfl h
      | succ j' => rfl
    | succ i' =>
      cases j with
      | zero => rfl
      | succ j' => exact ih i' j' (fun hc => h (by rw [hc]))

/-- Reading the slot just set yields the written value (index in range). -/
theorem getD_set_self {α : Type} (l : List α) (i : Nat) (a d : α) (h : i < l.length) :
    (l.set i a).getD i d = a := by
  induction l generalizing i with
  | nil => simp at h
  | cons hd tl ih =>
    cases i with
    | zero => rfl
    | succ i' => exact ih i' (by simpa using h)

/-- `ref_count` never touches the constraint system. -/
theorem refCount_cs (st : GenState) (i : Nat) : (refCount st i).cs = st.cs := by
  simp only [refCount]
  split <;> rfl

/-- `ref_count` on `i` leaves every other slot unchanged. -/
theorem refCount_nodes_getD_ne (st : GenState) (i j : Nat) (h : j ≠ i) :
    (refCount st i).nodes.getD j none = st.nodes.getD j none := by
  simp only [refCount]
  split
  · exact getD_set_ne st.nodes i j none none h
  · rfl

/-- Claim C5: in the `Mul` arm of `gen_circuit`, two linear-combination
operands emit exactly one multiplication gate through `cs.multiply` (no
`constrain`, no allocation) and the node's slot receives the gate's output
wire; if either operand is a scalar — `(LC, Scalar)`, `(Scalar, LC)` or
`(Scalar, Scalar)`, the three remaining arms of `Mul for Node` — the product
is formed by scalar folding with the constraint system left entirely
unchanged (no gate); and `Mul for Node` on two linear combinations is the
`panic!("Illegal operation.")` arm. -/
theorem c5_mul_gate_emission (g : ZkpGraph) (f : Nat → Option Scalar) (st : GenState)
    (idx l r : Nat) (x y : LinComb) (s s2 : Scalar)
    (hop : g.ops[idx]? = some .mul)
    (hbin : getBinaryOperands g idx = .ok (l, r))
    (hidx : idx < st.nodes.length) (hnl : l ≠ idx) (hnr : r ≠ idx) :
    (st.nodes.getD l none = some (.linearCombination x) →
      st.nodes.getD r none = some (.linearCombination y) →
      ∃ st', processNode g f st idx = .ok st' ∧
        st'.cs.numMultipliers = st.cs.numMultipliers + 1 ∧
        st'.cs.numAllocated = st.cs.numAllocated ∧
        st'.cs.constraints = st.cs.constraints ∧
        st'.nodes.getD idx none =
          some (.linearCombination (lcOfVar (.mulOutput st.cs.numMultipliers)))) ∧
    (st.nodes.getD l none = some (.linearCombination x) →
      st.nodes.getD r none = some (.scalar s) →
      ∃ st', processNode g f st idx = .ok st' ∧
        st'.cs = st.cs ∧
        st'.nodes.getD idx none = some (.linearCombination (lcScale x s))) ∧
    (st.nodes.getD l none = some (.scalar s) →
      st.nodes.getD r none = some (.linearCombination y) →
      ∃ st', processNode g f st idx = .ok st' ∧
        st'.cs = st.cs ∧
        st'.nodes.getD idx none = some (.linearCombination (lcScale y s))) ∧
    (st.nodes.getD l none = some (.scalar s) →
      st.nodes.getD r none = some (.scalar s2) →
      ∃ st', processNode g f st idx = .ok st' ∧
        st'.cs = st.cs ∧
        st'.nodes.getD idx none = some (.scalar (s * s2))) ∧
    nodeMul (.linearCombination x) (.linearCombination y) =
      .error (.panicked "Illegal operation.") := by
  refine ⟨fun hl hr => ?_, fun hl hr => ?_, fun hl hr => ?_, fun hl hr => ?_, rfl⟩
  · refine ⟨refCount (refCount { st with
        cs := { st.cs with numMultipliers := st.cs.numMultipliers + 1 },
        nodes := st.nodes.set idx (some (.linearCombination
          (lcOfVar (.mulOutput st.cs.numMultipliers)))) } l) r, ?_, ?_, ?_, ?_, ?_⟩
    · simp only [processNode, hop, hbin, Bind.bind, Except.bind, getOperandNode, hl, hr,
        csMultiply, pure, Except.pure]
    · rw [refCount_cs, refCount_cs]
    · rw [refCount_cs, refCount_cs]
    · rw [refCount_cs, refCount_cs]
    · rw [refCount_nodes_getD_ne _ _ _ (Ne.symm hnr), refCount_nodes_getD_ne _ _ _ (Ne.symm hnl)]
      exact getD_set_self _ _ _ _ hidx
  · refine ⟨refCount (refCount { st with
        nodes := st.nodes.set idx (some (.linearCombination (lcScale x s))) } l) r, ?_, ?_, ?_⟩
    · simp only [processNode, hop, hbin, Bind.bind, Except.bind, getOperandNode, hl, hr,
        nodeMul, pure, Except.pure]
    · rw [refCount_cs, refCount_cs]
    · rw [refCount_nodes_getD_ne _ _ _ (Ne.symm hnr), refCount_nodes_getD_ne _ _ _ (Ne.symm hnl)]
      exact getD_set_self _ _ _ _ hidx
  · refine ⟨refCount (refCount { st with
        nodes := st.nodes.set idx (some (.linearCombination (lcScale y s))) } l) r, ?_, ?_, ?_⟩
    · simp only [processNode, hop, hbin, Bind.bind, Except.bind, getOperandNode, hl, hr,
        nodeMul, pure, Except.pure]
    · rw [refCount_cs, refCount_cs]
    · rw [refCount_nodes_getD_ne _ _ _ (Ne.symm hnr), refCount_nodes_getD_ne _ _ _ (Ne.symm hnl)]
      exact getD_set_self _ _ _ _ hidx
  · refine ⟨refCount (refCount { st with
        nodes := st.nodes.set idx (some (.scalar (s * s2))) } l) r, ?_, ?_, ?_⟩
    · simp only [processNode, hop, hbin, Bind.bind, Except.bind, getOperandNode, hl, hr,
        nodeMul, pure, Except.pure]
    · rw [refCount_cs, refCount_cs]
    · rw [refCount_nodes_getD_ne _ _ _ (Ne.symm hnr), refCount_nodes_getD_ne _ _ _ (Ne.symm hnl)]
      exact getD_set_self _ _ _ _ hidx

/-- Witness for C5 at the `Mul` node of the repository's test graph, with
all four operand shapes exercised non-vacuously: both-LC (one gate), the
`(LC, Scalar)`, `(Scalar, LC)` and `(Scalar, Scalar)` folds (constraint
system unchanged), and the illegal `LC×LC` fold. -/
theorem c5_mul_gate_emission_witness :
    gS1.ops[3]? = some .mul ∧ getBinaryOperands gS1 3 = .ok (0, 1) ∧
    (∃ st', processNode gS1 getInputNone stMulDemo 3 = .ok st' ∧
      st'.cs.numMultipliers = stMulDemo.cs.numMultipliers + 1 ∧
      st'.cs.numAllocated = stMulDemo.cs.numAllocated ∧
      st'.cs.constraints = stMulDemo.cs.constraints ∧
      st'.nodes.getD 3 none =
        some (.linearCombination (lcOfVar (.mulOutput stMulDemo.cs.numMultipliers)))) ∧
    (∃ st', processNode gS1 getInputNone stLcScalarDemo 3 = .ok st' ∧
      st'.cs = stLcScalarDemo.cs ∧
      st'.nodes.getD 3 none = some (.linearCombination (lcScale lcW0 3))) ∧
    (∃ st', processNode gS1 getInputNone stScalarLcDemo 3 = .ok st' ∧
      st'.cs = stScalarLcDemo.cs ∧
      st'.nodes.getD 3 none = some (.linearCombination (lcScale lcW1 2))) ∧
    (∃ st', processNode gS1 getInputNone stScalarDemo 3 = .ok st' ∧
      st'.cs = stScalarDemo.cs ∧
      st'.nodes.getD 3 none = some (.scalar (2 * 3))) ∧
    nodeMul (.linearCombination lcW0) (.linearCombination lcW1) =
      .error (.panicked "Illegal operation.") :=
  ⟨by decide, by decide,
    (c5_mul_gate_emission gS1 getInputNone stMulDemo 3 0 1 lcW0 lcW1 0 0
      (by decide) (by decide) (by decide) (by decide) (by decide)).1 rfl rfl,
    (c5_mul_gate_emission gS1 getInputNone stLcScalarDemo 3 0 1 lcW0 lcW1 3 0
      (by decide) (by decide) (by decide) (by decide) (by decide)).2.1 rfl rfl,
    (c5_mul_gate_emission gS1 getInputNone stScalarLcDemo 3 0 1 lcW0 lcW1 2 0
      (by decide) (by decide) (by decide) (by decide) (by decide)).2.2.1 rfl rfl,
    (c5_mul_gate_emission gS1 getInputNone stScalarDemo 3 0 1 lcW0 lcW1 2 3
      (by decide) (by decide) (by decide) (by decide) (by decide)).2.2.2.1 rfl rfl,
    (c5_mul_gate_emission gS1 getInputNone stMulDemo 3 0 1 lcW0 lcW1 0 0
      (by decide) (by decide) (by decide) (by decide) (by decide)).2.2.2.2⟩

/-- Claim C6 (amended): in the `Constraint(x)` arm, a linear-combination
operand `ℓ` emits `constrain(ℓ - x)`; a scalar operand `s` succeeds exactly
when `s = x`, and on a mismatch `gen_circuit` fails with the *gadget* error
(`R1CSError::GadgetError`, the spec taxonomy's `BackendGadgetError`) — not
with a `StaticConstraintMismatch` value; and the arm is the fold of this
per-operand step over the node's `Unordered` operands. -/
theorem c6_constraint_operand_semantics (x sv : Scalar) (st : GenState) (o : Nat) (l : LinComb)
    (g : ZkpGraph) (f : Nat → Option Scalar) (idx : Nat) (bx : BigInt) (s : Scalar)
    (hop : g.ops[idx]? = some (.constraint bx))
    (hsc : try_uint_to_scalar bx = .ok s) :
    (st.nodes.getD o none = some (.linearCombination l) →
      constraintStep x st o = .ok (refCount { st with cs := csConstrain st.cs (lcSubScalar l x) } o)) ∧
    (st.nodes.getD o none = some (.scalar sv) → sv = x →
      constraintStep x st o = .ok (refCount st o)) ∧
    (st.nodes.getD o none = some (.scalar sv) → sv ≠ x →
      constraintStep x st o = .error (.backendGadgetError
        ("Constant " ++ toString x.val ++ " does not equal " ++ toString sv.val)) ∧
      (constraintStep x st o).isOk = false ∧
      BpError.isStaticConstraintMismatch (.backendGadgetError
        ("Constant " ++ toString x.val ++ " does not equal " ++ toString sv.val)) = false) ∧
    processNode g f st idx = (getUnorderedOperands g idx).foldlM (constraintStep s) st := by
  refine ⟨fun hl => ?_, fun hs heq => ?_, fun hs hne => ?_, ?_⟩
  · simp only [constraintStep, getOperandNode, hl, Bind.bind, Except.bind, pure, Except.pure]
  · subst heq
    simp only [constraintStep, getOperandNode, hs, Bind.bind, Except.bind, pure, Except.pure,
      ne_eq, not_true_eq_false, if_false]
  · have hxs : x ≠ sv := Ne.symm hne
    refine ⟨?_, ?_, rfl⟩
    · simp only [constraintStep, getOperandNode, hs, Bind.bind, Except.bind, pure, Except.pure,
        ne_eq, hxs, not_false_eq_true, if_true]
    · simp only [constraintStep, getOperandNode, hs, Bind.bind, Except.bind, pure, Except.pure,
        ne_eq, hxs, not_false_eq_true, if_true, Except.isOk, Except.toBool]
  · simp only [processNode, hop, hsc, Bind.bind, Except.bind]

/-- Counterexample to C6 as stated: constraining `Constant(5)` to equal 7
makes `gen_circuit` fail with the gadget error (`R1CSError::GadgetError`
with the "Constant 7 does not equal 5" description), which is not a
`StaticConstraintMismatch` value. -/
theorem c6_gadget_error_name_cex :
    genCircuit gMismatch getInputNone =
      .error (.backendGadgetError "Constant 7 does not equal 5") ∧
    BpError.isStaticConstraintMismatch
      (.backendGadgetError "Constant 7 does not equal 5") = false :=
  ⟨by decide, rfl⟩

/-- Witness for the amended C6 on the `Constant(5)`/`Constraint(7)` graph. -/
theorem c6_constraint_operand_semantics_witness :
    gMismatch.ops[1]? = some (.constraint (smallBigInt 7)) ∧
    try_uint_to_scalar (smallBigInt 7) = .ok (7 : Scalar) ∧
    ((stConDemo.nodes.getD 0 none = some (.linearCombination lcW0) →
      constraintStep 7 stConDemo 0 =
        .ok (refCount { stConDemo with cs := csConstrain stConDemo.cs (lcSubScalar lcW0 7) } 0)) ∧
    (stConDemo.nodes.getD 0 none = some (.scalar (5 : Scalar)) → (5 : Scalar) = 7 →
      constraintStep 7 stConDemo 0 = .ok (refCount stConDemo 0)) ∧
    (stConDemo.nodes.getD 0 none = some (.scalar (5 : Scalar)) → (5 : Scalar) ≠ 7 →
      constraintStep 7 stConDemo 0 = .error (.backendGadgetError
        ("Constant " ++ toString (7 : Scalar).val ++ " does not equal " ++
          toString (5 : Scalar).val)) ∧
      (constraintStep 7 stConDemo 0).isOk = false ∧
      BpError.isStaticConstraintMismatch (.backendGadgetError
        ("Constant " ++ toString (7 : Scalar).val ++ " does not equal " ++
          toString (5 : Scalar).val)) = false) ∧
    processNode gMismatch getInputNone stConDemo 1 =
      (getUnorderedOperands gMismatch 1).foldlM (constraintStep 7) stConDemo) :=
  ⟨by decide, by decide,
    c6_constraint_operand_semantics 7 5 stConDemo 0 lcW0 gMismatch getInputNone 1
      (smallBigInt 7) 7 (by decide) (by decide)⟩

/-- Counterexample to C8 as stated: on the single-`Input` graph,
`gen_circuit` succeeds but node 0 — which has no consumers, so `ref_count`
never fires on it — retains its linear combination; not every slot is
`None`. -/
theorem c8_slots_not_all_none_cex :
    genCircuit gInputOnly getInputNone =
      .ok ⟨[some (.linearCombination [(.committed 0, 1)])], [0], ⟨1, 0, []⟩⟩ ∧
    slotsAllNone (genCircuit gInputOnly getInputNone) = false :=
  ⟨by decide, by decide⟩

/-- Splitting an edge count by role: every edge carries exactly one of the
three roles. -/
theorem countP_role_split (l : List ZkEdge) (p : ZkEdge → Bool) :
    l.countP p =
      (l.filter (fun e => e.info = .left)).countP p +
      (l.filter (fun e => e.info = .right)).countP p +
      (l.filter (fun e => e.info = .unordered)).countP p := by
  induction l with
  | nil => rfl
  | cons e t ih =>
    rcases e with ⟨s, tg, info⟩
    cases info <;>
      simp only [List.filter_cons, List.countP_cons, decide_True, decide_False,
        if_true, if_false, ih] <;>
      cases hp : p ⟨s, tg, _⟩ <;> simp <;> omega

/-- Processing `c` converts exactly the `c`-bound out-edges of every node
from unprocessed to processed. -/
theorem edgesToUnprocessed_append (g : ZkpGraph) (P : List Nat) (c i : Nat) (hcP : c ∉ P) :
    edgesToUnprocessed g (P ++ [c]) i + sourceCount g c i = edgesToUnprocessed g P i := by
  unfold edgesToUnprocessed sourceCount outEdges inEdges
  rw [List.countP_filter, List.countP_filter, List.countP_filter]
  induction g.edges with
  | nil => rfl
  | cons e t ih =>
    simp only [List.countP_cons]
    by_cases hsi : e.source = i <;> by_cases htP : e.target ∈ P <;> by_cases htc : e.target = c <;>
      simp [hsi, htP, htc, List.mem_append, hcP] at * <;> omega

/-- An unprocessed-consumer count never exceeds the out-degree. -/
theorem edgesToUnprocessed_le_outDegree (g : ZkpGraph) (P : List Nat) (i : Nat) :
    edgesToUnprocessed g P i ≤ outDegree g i :=
  List.countP_le_length _

/-- Auxiliary count: when no `i`-sourced edge of `l` has a processed
target, counting the unprocessed `i`-sourced edges is counting the
`i`-sourced edges. -/
theorem countP_unprocessed_eq_filter_length (l : List ZkEdge) (P : List Nat) (i : Nat)
    (h : ∀ e ∈ l, e.source = i → e.target ∉ P) :
    l.countP (fun e => decide (e.target ∉ P) && decide (e.source = i)) =
      (l.filter (fun e => decide (e.source = i))).length := by
  induction l with
  | nil => rfl
  | cons e t ih =>
    have ih' := ih (fun e' he' hs => h e' (List.mem_cons_of_mem _ he') hs)
    simp only [decide_not] at ih'
    by_cases hsi : e.source = i
    · have hnp : e.target ∉ P := h e (List.mem_cons_self _ _) hsi
      simp [List.countP_cons, List.filter_cons, hsi, hnp, ih']
    · simp [List.countP_cons, List.filter_cons, hsi, ih']

/-- When none of `i`'s consumers are processed, the unprocessed count is the
full out-degree. -/
theorem edgesToUnprocessed_eq_outDegree (g : ZkpGraph) (P : List Nat) (i : Nat)
    (h : ∀ e ∈ g.edges, e.source = i → e.target ∉ P) :
    edgesToUnprocessed g P i = outDegree g i := by
  unfold edgesToUnprocessed outDegree outEdges
  rw [List.countP_filter]
  exact countP_unprocessed_eq_filter_length g.edges P i h

/-- A node with no incoming edges contributes no consumption events. -/
theorem sourceCount_of_no_inEdges (g : ZkpGraph) (c i : Nat) (h : inEdges g c = []) :
    sourceCount g c i = 0 := by
  unfold sourceCount
  rw [h]
  rfl

/-- A node feeding an edge has positive out-degree. -/
theorem outDegree_pos_of_edge (g : ZkpGraph) (e : ZkEdge) (he : e ∈ g.edges) :
    0 < outDegree g e.source := by
  unfold outDegree outEdges
  have hm : e ∈ g.edges.filter (fun e' => decide (e'.source = e.source)) :=
    List.mem_filter.mpr ⟨he, by simp⟩
  exact List.length_pos.mpr (List.ne_nil_of_mem hm)

/-- Once every consumer is processed nothing remains unprocessed. -/
theorem edgesToUnprocessed_eq_zero (g : ZkpGraph) (P : List Nat) (i : Nat)
    (h : ∀ e ∈ g.edges, e.target ∈ P) :
    edgesToUnprocessed g P i = 0 := by
  unfold edgesToUnprocessed outEdges
  rw [List.countP_filter, List.countP_eq_zero]
  intro e he
  simp [h e he]

/-- Inverting `get_binary_operands` under binary edge-role well-formedness:
the left and right edges are unique, and the unordered list is empty. -/
theorem getBinaryOperands_inEdges (g : ZkpGraph) (c l r : Nat)
    (hroles : binaryRolesOk g c = true)
    (hbin : getBinaryOperands g c = .ok (l, r)) :
    ∃ le re, (inEdges g c).filter (fun e => decide (e.info = EdgeInfo.left)) = [le] ∧
      (inEdges g c).filter (fun e => decide (e.info = EdgeInfo.right)) = [re] ∧
      (inEdges g c).filter (fun e => decide (e.info = EdgeInfo.unordered)) = [] ∧
      le.source = l ∧ re.source = r ∧ le ∈ g.edges ∧ re ∈ g.edges ∧
      le.target = c ∧ re.target = c := by
  unfold binaryRolesOk at hroles
  simp only [Bool.and_eq_true, decide_eq_true_eq] at hroles
  obtain ⟨⟨hl1, hr1⟩, hu0⟩ := hroles
  obtain ⟨le, hle⟩ := List.length_eq_one.mp hl1
  obtain ⟨re, hre⟩ := List.length_eq_one.mp hr1
  have hun : (inEdges g c).filter (fun e => decide (e.info = EdgeInfo.unordered)) = [] :=
    List.length_eq_zero.mp hu0
  unfold getBinaryOperands at hbin
  rw [hle, hre] at hbin
  simp only [Except.ok.injEq, Prod.mk.injEq] at hbin
  have hmemle : le ∈ inEdges g c := List.mem_of_mem_filter (hle ▸ List.mem_singleton_self le)
  have hmemre : re ∈ inEdges g c := List.mem_of_mem_filter (hre ▸ List.mem_singleton_self re)
  refine ⟨le, re, hle, hre, hun, hbin.1, hbin.2, ?_, ?_, ?_, ?_⟩
  · exact List.mem_of_mem_filter hmemle
  · exact List.mem_of_mem_filter hmemre
  · simpa using (List.mem_filter.mp hmemle).2
  · simpa using (List.mem_filter.mp hmemre).2

/-- `sourceCount` of a binary node: one per matching operand. -/
theorem sourceCount_binary (g : ZkpGraph) (c l r i : Nat)
    (hroles : binaryRolesOk g c = true)
    (hbin : getBinaryOperands g c = .ok (l, r)) :
    sourceCount g c i = (if l = i then 1 else 0) + (if r = i then 1 else 0) := by
  obtain ⟨le, re, hle, hre, hun, hsl, hsr, _, _, _, _⟩ :=
    getBinaryOperands_inEdges g c l r hroles hbin
  unfold sourceCount
  rw [countP_role_split, hle, hre, hun]
  subst hsl
  subst hsr
  by_cases h1 : le.source = i <;> by_cases h2 : re.source = i <;>
    simp [List.countP_cons, h1, h2]

/-- `sourceCount` of a `Neg` node: one for its single predecessor. -/
theorem sourceCount_unary (g : ZkpGraph) (c a i : Nat)
    (hlen : (inEdges g c).length = 1)
    (huna : getUnaryOperand g c = .ok a) :
    sourceCount g c i = if a = i then 1 else 0 := by
  obtain ⟨e, he⟩ := List.length_eq_one.mp hlen
  unfold getUnaryOperand at huna
  rw [he] at huna
  simp only [Except.ok.injEq] at huna
  unfold sourceCount
  rw [he]
  subst huna
  by_cases h1 : e.source = i <;> simp [List.countP_cons, h1]

/-- `sourceCount` of a `Constraint` node: the operand multiplicity. -/
theorem sourceCount_constraint (g : ZkpGraph) (c i : Nat)
    (hall : (inEdges g c).all (fun e => decide (e.info = EdgeInfo.unordered)) = true) :
    sourceCount g c i = (getUnorderedOperands g c).count i := by
  unfold sourceCount getUnorderedOperands
  have hfe : (inEdges g c).filter (fun e => decide (e.info = EdgeInfo.unordered)) = inEdges g c :=
    List.filter_eq_self.mpr (by simpa [List.all_eq_true] using hall)
  rw [hfe, List.count, List.countP_map]
  refine List.countP_congr ?_
  intro e _
  by_cases h : e.source = i <;> simp [h, Function.comp]

/-- `ref_count` decrements the target's own counter. -/
theorem refCount_childCount_getD_self (st : GenState) (i : Nat) (hi : i < st.childCount.length) :
    (refCount st i).childCount.getD i 0 = st.childCount.getD i 0 - 1 := by
  simp only [refCount]
  split <;> exact getD_set_self _ _ _ _ hi

/-- `ref_count` leaves other counters alone. -/
theorem refCount_childCount_getD_ne (st : GenState) (i j : Nat) (h : j ≠ i) :
    (refCount st i).childCount.getD j 0 = st.childCount.getD j 0 := by
  simp only [refCount]
  split <;> exact getD_set_ne _ _ _ _ _ h

/-- Reading a just-written default value. -/
theorem getD_set_default {α : Type} (l : List α) (i : Nat) (d : α) :
    (l.set i d).getD i d = d := by
  induction l generalizing i with
  | nil => rfl
  | cons hd tl ih =>
    cases i with
    | zero => rfl
    | succ i' => exact ih i'

/-- When the decremented counter reaches zero, `ref_count` clears the slot. -/
theorem refCount_nodes_getD_self_zero (st : GenState) (i : Nat)
    (h : st.childCount.getD i 0 - 1 = 0) :
    (refCount st i).nodes.getD i none = none := by
  simp only [refCount, if_pos h]
  exact getD_set_default _ _ _

/-- When the decremented counter stays positive, the slots are untouched. -/
theorem refCount_nodes_of_pos (st : GenState) (i : Nat)
    (h : ¬st.childCount.getD i 0 - 1 = 0) :
    (refCount st i).nodes = st.nodes := by
  simp only [refCount, if_neg h]

/-- `ref_count` preserves the table sizes. -/
theorem refCount_nodes_length (st : GenState) (i : Nat) :
    (refCount st i).nodes.length = st.nodes.length := by
  simp only [refCount]
  split <;> simp

/-- `ref_count` preserves the counter-vector size. -/
theorem refCount_childCount_length (st : GenState) (i : Nat) :
    (refCount st i).childCount.length = st.childCount.length := by
  simp only [refCount]
  split <;> simp

/-- Opening the mid-node invariant: writing (or not writing) `c`'s own slot
on top of a `SlotInv` state starts the consumption phase.  The constraint
system plays no role in the invariant. -/
theorem midInvAt_open (g : ZkpGraph) (P : List Nat) (c : Nat) (st : GenState)
    (cs' : ConstraintSys) (v : Option BpNode)
    (hinv : SlotInv g P st) (hc : c < g.ops.length) (hcP : c ∉ P) :
    MidInvAt g P c [] v
      { st with cs := cs',
                nodes := match v with
                  | some v' => st.nodes.set c (some v')
                  | none => st.nodes } := by
  obtain ⟨hlen1, hlen2, hall⟩ := hinv
  have hcnone : st.nodes.getD c none = none := by
    have := (hall c hc).2
    cases hn : st.nodes.getD c none with
    | none => rfl
    | some w =>
      have : c ∈ P ∧ _ := (this.mp (by rw [hn]; rfl))
      exact absurd this.1 hcP
  cases v with
  | none =>
    refine ⟨hlen1, hlen2, hcnone, (hall c hc).1, ?_⟩
    intro i hi _
    simpa using hall i hi
  | some v' =>
    refine ⟨by simpa using hlen1, by simpa using hlen2, ?_, (hall c hc).1, ?_⟩
    · exact getD_set_self _ _ _ _ (by rw [hlen1]; exact hc)
    · intro i hi hic
      rw [getD_set_ne _ _ _ _ _ hic]
      simpa using hall i hi

/-- One consumption event: `ref_count` the operand occurrence `o`. -/
theorem midInvAt_consume (g : ZkpGraph) (P : List Nat) (c : Nat) (consumed : List Nat)
    (vc : Option BpNode) (st : GenState) (o : Nat)
    (ho : o < g.ops.length) (hoc : o ≠ c)
    (hmore : consumed.count o < edgesToUnprocessed g P o)
    (hinv : MidInvAt g P c consumed vc st) :
    MidInvAt g P c (consumed ++ [o]) vc (refCount st o) := by
  obtain ⟨hlen1, hlen2, hvc, hcc, hall⟩ := hinv
  have hocnt := (hall o ho hoc).1
  have hosl := (hall o ho hoc).2
  have hobound : o < st.childCount.length := by rw [hlen2]; exact ho
  have hdec := refCount_childCount_getD_self st o hobound
  refine ⟨by rw [refCount_nodes_length]; exact hlen1,
          by rw [refCount_childCount_length]; exact hlen2,
          by rw [refCount_nodes_getD_ne st o c (Ne.symm hoc)]; exact hvc,
          by rw [refCount_childCount_getD_ne st o c (Ne.symm hoc)]; exact hcc, ?_⟩
  intro i hi hic
  by_cases hio : i = o
  · subst hio
    have hone : List.count i [i] = 1 := by simp
    constructor
    · rw [hdec, List.count_append, hone]
      omega
    · have hout : outDegree g i ≠ 0 := by
        have hle := edgesToUnprocessed_le_outDegree g P i
        omega
      by_cases hz : st.childCount.getD i 0 - 1 = 0
      · rw [refCount_nodes_getD_self_zero st i hz]
        simp only [Option.isSome_none, Bool.false_eq_true, false_iff]
        rintro ⟨_, _, hdisj⟩
        rw [List.count_append, hone] at hdisj
        rcases hdisj with h | h
        · exact hout h
        · omega
      · rw [refCount_nodes_of_pos st i hz]
        rw [hosl, List.count_append, hone]
        constructor
        · rintro ⟨h1, h2, _⟩
          exact ⟨h1, h2, Or.inr (by omega)⟩
        · rintro ⟨h1, h2, _⟩
          exact ⟨h1, h2, Or.inr (by omega)⟩
  · have huncnt := refCount_childCount_getD_ne st o i hio
    have hunsl := refCount_nodes_getD_ne st o i hio
    have hz : List.count i [o] = 0 := by simp [List.count_cons, hio]
    obtain ⟨hc1, hc2⟩ := hall i hi hic
    rw [huncnt, hunsl, List.count_append, hz]
    constructor
    · omega
    · simpa using hc2

/-- Consuming a whole operand list, one `ref_count` at a time. -/
theorem midInvAt_consume_list (g : ZkpGraph) (P : List Nat) (c : Nat) (opsL : List Nat) :
    ∀ (q : List Nat) (vc : Option BpNode) (st : GenState),
    MidInvAt g P c q vc st →
    (∀ o ∈ opsL, o < g.ops.length ∧ o ≠ c) →
    (∀ i, (q ++ opsL).count i ≤ edgesToUnprocessed g P i) →
    MidInvAt g P c (q ++ opsL) vc (opsL.foldl refCount st) := by
  induction opsL with
  | nil => intro q vc st hinv _ _; simpa using hinv
  | cons o t ih =>
    intro q vc st hinv hops hbound
    have hmore : q.count o < edgesToUnprocessed g P o := by
      have hb := hbound o
      rw [List.count_append, List.count_cons_self] at hb
      omega
    have h1 := midInvAt_consume g P c q vc st o (hops o (List.mem_cons_self o t)).1
      (hops o (List.mem_cons_self o t)).2 hmore hinv
    have h2 := ih (q ++ [o]) vc (refCount st o) h1
      (fun o' ho' => hops o' (List.mem_cons_of_mem _ ho'))
      (fun i => by rw [List.append_assoc, List.singleton_append]; exact hbound i)
    rw [List.append_assoc, List.singleton_append] at h2
    exact h2

/-- Closing the mid-node invariant: once every operand occurrence of `c` is
consumed, the per-traversal invariant holds with `c` processed. -/
theorem midInvAt_close (g : ZkpGraph) (P : List Nat) (c : Nat) (operands : List Nat)
    (vc : Option BpNode) (st : GenState)
    (hinv : MidInvAt g P c operands vc st)
    (hcount : ∀ i, operands.count i = sourceCount g c i)
    (hcP : c ∉ P) (hc : c < g.ops.length)
    (hvs : vc.isSome = storesAt g c)
    (houtc : ∀ e ∈ g.edges, e.source = c → e.target ∉ P ∧ e.target ≠ c) :
    SlotInv g (P ++ [c]) st := by
  obtain ⟨hlen1, hlen2, hvc, hcc, hall⟩ := hinv
  have hscc : sourceCount g c c = 0 := by
    unfold sourceCount inEdges
    rw [List.countP_filter, List.countP_eq_zero]
    intro e he hbe
    simp only [Bool.and_eq_true, decide_eq_true_eq] at hbe
    exact (houtc e he hbe.1).2 hbe.2
  have happc := edgesToUnprocessed_append g P c c hcP
  have hEc : edgesToUnprocessed g (P ++ [c]) c = edgesToUnprocessed g P c := by omega
  have hEoutc : edgesToUnprocessed g P c = outDegree g c :=
    edgesToUnprocessed_eq_outDegree g P c (fun e he hs => (houtc e he hs).1)
  refine ⟨hlen1, hlen2, ?_⟩
  intro i hi
  by_cases hic : i = c
  · subst hic
    constructor
    · rw [hcc, hEc]
    · rw [hvc, hvs]
      constructor
      · intro hs
        refine ⟨by simp, hs, ?_⟩
        rcases Nat.eq_zero_or_pos (outDegree g i) with h0 | hpos
        · exact Or.inl h0
        · exact Or.inr (by rw [hEc, hEoutc]; exact hpos)
      · rintro ⟨_, hs, _⟩
        exact hs
  · have hmem : i ∈ P ++ [c] ↔ i ∈ P := by simp [List.mem_append, hic]
    obtain ⟨h1, h2⟩ := hall i hi hic
    have happ := edgesToUnprocessed_append g P c i hcP
    have hcnt := hcount i
    constructor
    · omega
    · rw [h2]
      constructor
      · rintro ⟨ha, hb, hdisj⟩
        refine ⟨hmem.mpr ha, hb, ?_⟩
        rcases hdisj with h0 | hlt
        · exact Or.inl h0
        · exact Or.inr (by omega)
      · rintro ⟨ha, hb, hdisj⟩
        refine ⟨hmem.mp ha, hb, ?_⟩
        rcases hdisj with h0 | hlt
        · exact Or.inl h0
        · exact Or.inr (by omega)

/-- A successful `constraintStep` is a `ref_count` of the operand on top of
some constraint-system change. -/
theorem constraintStep_shape (s : Scalar) (st : GenState) (o : Nat) (st1 : GenState)
    (h : constraintStep s st o = .ok st1) :
    ∃ cs', st1 = refCount { st with cs := cs' } o := by
  unfold constraintStep getOperandNode at h
  cases hv : st.nodes.getD o none with
  | none => rw [hv] at h; simp [Bind.bind, Except.bind] at h
  | some v =>
    rw [hv] at h
    simp only [Bind.bind, Except.bind] at h
    cases v with
    | linearCombination l =>
      simp only [pure, Except.pure, Except.ok.injEq] at h
      exact ⟨csConstrain st.cs (lcSubScalar l s), h.symm⟩
    | scalar sv =>
      dsimp only at h
      by_cases hne : s ≠ sv
      · rw [if_pos hne] at h
        simp at h
      · rw [if_neg hne] at h
        simp only [pure, Except.pure, Except.ok.injEq] at h
        exact ⟨st.cs, h.symm⟩

/-- Folding `constraintStep` over the remaining operands consumes them. -/
theorem constraint_fold_midInv (g : ZkpGraph) (P : List Nat) (c : Nat) (s : Scalar)
    (rest : List Nat) :
    ∀ (q : List Nat) (vc : Option BpNode) (st st' : GenState),
    MidInvAt g P c q vc st →
    (∀ o ∈ rest, o < g.ops.length ∧ o ≠ c) →
    (∀ i, (q ++ rest).count i ≤ edgesToUnprocessed g P i) →
    rest.foldlM (constraintStep s) st = .ok st' →
    MidInvAt g P c (q ++ rest) vc st' := by
  induction rest with
  | nil =>
    intro q vc st st' hinv _ _ hfold
    simp only [List.foldlM_nil, pure, Except.pure, Except.ok.injEq] at hfold
    subst hfold
    simpa using hinv
  | cons o t ih =>
    intro q vc st st' hinv hops hbound hfold
    rw [List.foldlM_cons] at hfold
    cases hstep : constraintStep s st o with
    | error e => rw [hstep] at hfold; simp [Bind.bind, Except.bind] at hfold
    | ok st1 =>
      rw [hstep] at hfold
      simp only [Bind.bind, Except.bind] at hfold
      obtain ⟨cs', hshape⟩ := constraintStep_shape s st o st1 hstep
      have hmore : q.count o < edgesToUnprocessed g P o := by
        have hb := hbound o
        rw [List.count_append, List.count_cons_self] at hb
        omega
      have hinv' : MidInvAt g P c q vc { st with cs := cs' } := hinv
      have h1 := midInvAt_consume g P c q vc { st with cs := cs' } o
        (hops o (List.mem_cons_self o t)).1 (hops o (List.mem_cons_self o t)).2 hmore hinv'
      rw [← hshape] at h1
      have h2 := ih (q ++ [o]) vc st1 st' h1
        (fun o' ho' => hops o' (List.mem_cons_of_mem _ ho'))
        (fun i => by rw [List.append_assoc, List.singleton_append]; exact hbound i)
        hfold
      rw [List.append_assoc, List.singleton_append] at h2
      exact h2

/-- Operand membership facts for a binary node: both operands are processed,
in range, and distinct from the node itself. -/
theorem binary_operand_facts (g : ZkpGraph) (P : List Nat) (c l r : Nat)
    (hwf : WfGraph g) (hcP : c ∉ P)
    (hsrc : ∀ e ∈ g.edges, e.target = c → e.source ∈ P)
    (hroles : binaryRolesOk g c = true)
    (hbin : getBinaryOperands g c = .ok (l, r)) :
    (l ∈ P ∧ l < g.ops.length ∧ l ≠ c) ∧ (r ∈ P ∧ r < g.ops.length ∧ r ≠ c) := by
  obtain ⟨le, re, hle, hre, hun, hsl, hsr, hleE, hreE, hlet, hret⟩ :=
    getBinaryOperands_inEdges g c l r hroles hbin
  have hlP : l ∈ P := hsl ▸ hsrc le hleE hlet
  have hrP : r ∈ P := hsr ▸ hsrc re hreE hret
  refine ⟨⟨hlP, hsl ▸ (hwf.1 le hleE).1, fun h => hcP (h ▸ hlP)⟩,
          ⟨hrP, hsr ▸ (hwf.1 re hreE).1, fun h => hcP (h ▸ hrP)⟩⟩

/-- The step preservation theorem: processing one node `c` whose parents are
all processed and whose consumers are all unprocessed moves the invariant
from `P` to `P ++ [c]`. -/
theorem processNode_slotInv_step (g : ZkpGraph) (f : Nat → Option Scalar)
    (st st' : GenState) (P : List Nat) (c : Nat)
    (hwf : WfGraph g)
    (hinv : SlotInv g P st)
    (hc : c < g.ops.length) (hcP : c ∉ P)
    (hsrc : ∀ e ∈ g.edges, e.target = c → e.source ∈ P)
    (houtc : ∀ e ∈ g.edges, e.source = c → e.target ∉ P ∧ e.target ≠ c)
    (hok : processNode g f st c = .ok st') :
    SlotInv g (P ++ [c]) st' := by
  have hSCle : ∀ i, sourceCount g c i ≤ edgesToUnprocessed g P i := by
    intro i
    have := edgesToUnprocessed_append g P c i hcP
    omega
  have hroles := hwf.2 c hc
  cases hopc : g.ops[c] with
  | input x =>
    have hop : g.ops[c]? = some (.input x) := by rw [List.getElem?_eq_getElem hc, hopc]
    have hie : inEdges g c = [] := by
      have : (inEdges g c).isEmpty = true := by
        unfold rolesOkAt at hroles
        rw [hop] at hroles
        exact hroles
      simpa [List.isEmpty_iff] using this
    simp only [processNode, hop, csAllocate, pure, Except.pure, Except.ok.injEq] at hok
    subst hok
    have h0 := midInvAt_open g P c st
      { st.cs with numAllocated := st.cs.numAllocated + 1 }
      (some (.linearCombination (lcOfVar (.committed st.cs.numAllocated)))) hinv hc hcP
    exact midInvAt_close g P c [] _ _ h0
      (fun i => by rw [sourceCount_of_no_inEdges g c i hie]; rfl)
      hcP hc (by simp [storesAt, hop]) houtc
  | hiddenInput x =>
    have hop : g.ops[c]? = some (.hiddenInput x) := by rw [List.getElem?_eq_getElem hc, hopc]
    have hie : inEdges g c = [] := by
      have : (inEdges g c).isEmpty = true := by
        unfold rolesOkAt at hroles
        rw [hop] at hroles
        exact hroles
      simpa [List.isEmpty_iff] using this
    simp only [processNode, hop, Bind.bind, Except.bind] at hok
    have hshape : st' = { st with
        cs := { st.cs with numAllocated := st.cs.numAllocated + 1 },
        nodes := st.nodes.set c
          (some (.linearCombination (lcOfVar (.committed st.cs.numAllocated)))) } := by
      cases x with
      | none =>
        dsimp only at hok
        simp only [csAllocate, pure, Except.pure, Except.ok.injEq] at hok
        exact hok.symm
      | some b =>
        dsimp only at hok
        cases htr : try_uint_to_scalar b with
        | error e => rw [htr] at hok; simp at hok
        | ok s =>
          rw [htr] at hok
          simp only [csAllocate, pure, Except.pure, Except.ok.injEq] at hok
          exact hok.symm
    subst hshape
    have h0 := midInvAt_open g P c st
      { st.cs with numAllocated := st.cs.numAllocated + 1 }
      (some (.linearCombination (lcOfVar (.committed st.cs.numAllocated)))) hinv hc hcP
    exact midInvAt_close g P c [] _ _ h0
      (fun i => by rw [sourceCount_of_no_inEdges g c i hie]; rfl)
      hcP hc (by simp [storesAt, hop]) houtc
  | constant x =>
    have hop : g.ops[c]? = some (.constant x) := by rw [List.getElem?_eq_getElem hc, hopc]
    have hie : inEdges g c = [] := by
      have : (inEdges g c).isEmpty = true := by
        unfold rolesOkAt at hroles
        rw [hop] at hroles
        exact hroles
      simpa [List.isEmpty_iff] using this
    simp only [processNode, hop, Bind.bind, Except.bind] at hok
    cases htr : try_uint_to_scalar x with
    | error e => rw [htr] at hok; simp at hok
    | ok s =>
      rw [htr] at hok
      simp only [pure, Except.pure, Except.ok.injEq] at hok
      subst hok
      have h0 := midInvAt_open g P c st st.cs (some (.scalar s)) hinv hc hcP
      exact midInvAt_close g P c [] _ _ h0
        (fun i => by rw [sourceCount_of_no_inEdges g c i hie]; rfl)
        hcP hc (by simp [storesAt, hop]) houtc
  | add =>
    have hop : g.ops[c]? = some .add := by rw [List.getElem?_eq_getElem hc, hopc]
    have hbroles : binaryRolesOk g c = true := by
      unfold rolesOkAt at hroles
      rw [hop] at hroles
      exact hroles
    simp only [processNode, hop, Bind.bind, Except.bind] at hok
    cases hbin : getBinaryOperands g c with
    | error e => rw [hbin] at hok; simp at hok
    | ok lr =>
      obtain ⟨l, r⟩ := lr
      rw [hbin] at hok
      simp only [getOperandNode] at hok
      cases hL : st.nodes.getD l none with
      | none => rw [hL] at hok; simp at hok
      | some left =>
        cases hR : st.nodes.getD r none with
        | none => rw [hL, hR] at hok; simp at hok
        | some right =>
          rw [hL, hR] at hok
          simp only [pure, Except.pure, Except.ok.injEq] at hok
          subst hok
          obtain ⟨⟨hlP, hlLt, hlNe⟩, ⟨hrP, hrLt, hrNe⟩⟩ :=
            binary_operand_facts g P c l r hwf hcP hsrc hbroles hbin
          have hsc := fun i => sourceCount_binary g c l r i hbroles hbin
          have hcnt : ∀ i, ([l, r] : List Nat).count i = sourceCount g c i := by
            intro i
            rw [hsc i]
            by_cases h1 : l = i <;> by_cases h2 : r = i <;>
              simp [List.count_cons, h1, h2]
          have h0 := midInvAt_open g P c st st.cs
            (some (nodeAdd left right)) hinv hc hcP
          have h1 := midInvAt_consume_list g P c [l, r] [] (some (nodeAdd left right)) _ h0
            (fun o ho => by
              rcases List.mem_cons.mp ho with rfl | ho
              · exact ⟨hlLt, hlNe⟩
              · rcases List.mem_cons.mp ho with rfl | ho
                · exact ⟨hrLt, hrNe⟩
                · simp at ho)
            (fun i => by rw [List.nil_append, hcnt i]; exact hSCle i)
          exact midInvAt_close g P c ([] ++ [l, r]) _ _ h1
            (fun i => by rw [List.nil_append, hcnt i]) hcP hc
            (by simp [storesAt, hop]) houtc
  | sub =>
    have hop : g.ops[c]? = some .sub := by rw [List.getElem?_eq_getElem hc, hopc]
    have hbroles : binaryRolesOk g c = true := by
      unfold rolesOkAt at hroles
      rw [hop] at hroles
      exact hroles
    simp only [processNode, hop, Bind.bind, Except.bind] at hok
    cases hbin : getBinaryOperands g c with
    | error e => rw [hbin] at hok; simp at hok
    | ok lr =>
      obtain ⟨l, r⟩ := lr
      rw [hbin] at hok
      simp only [getOperandNode] at hok
      cases hL : st.nodes.getD l none with
      | none => rw [hL] at hok; simp at hok
      | some left =>
        cases hR : st.nodes.getD r none with
        | none => rw [hL, hR] at hok; simp at hok
        | some right =>
          rw [hL, hR] at hok
          simp only [pure, Except.pure, Except.ok.injEq] at hok
          subst hok
          obtain ⟨⟨hlP, hlLt, hlNe⟩, ⟨hrP, hrLt, hrNe⟩⟩ :=
            binary_operand_facts g P c l r hwf hcP hsrc hbroles hbin
          have hsc := fun i => sourceCount_binary g c l r i hbroles hbin
          have hcnt : ∀ i, ([l, r] : List Nat).count i = sourceCount g c i := by
            intro i
            rw [hsc i]
            by_cases h1 : l = i <;> by_cases h2 : r = i <;>
              simp [List.count_cons, h1, h2]
          have h0 := midInvAt_open g P c st st.cs
            (some (nodeSub left right)) hinv hc hcP
          have h1 := midInvAt_consume_list g P c [l, r] [] (some (nodeSub left right)) _ h0
            (fun o ho => by
              rcases List.mem_cons.mp ho with rfl | ho
              · exact ⟨hlLt, hlNe⟩
              · rcases List.mem_cons.mp ho with rfl | ho
                · exact ⟨hrLt, hrNe⟩
                · simp at ho)
            (fun i => by rw [List.nil_append, hcnt i]; exact hSCle i)
          exact midInvAt_close g P c ([] ++ [l, r]) _ _ h1
            (fun i => by rw [List.nil_append, hcnt i]) hcP hc
            (by simp [storesAt, hop]) houtc
  | neg =>
    have hop : g.ops[c]? = some .neg := by rw [List.getElem?_eq_getElem hc, hopc]
    have hlen1 : (inEdges g c).length = 1 := by
      unfold rolesOkAt at hroles
      rw [hop] at hroles
      exact of_decide_eq_true hroles
    obtain ⟨e, he⟩ := List.length_eq_one.mp hlen1
    have heE : e ∈ g.edges := List.mem_of_mem_filter (he ▸ List.mem_singleton_self e)
    have het : e.target = c := by
      have := (List.mem_filter.mp (he ▸ List.mem_singleton_self e)).2
      simpa using this
    simp only [processNode, hop, Bind.bind, Except.bind, getUnaryOperand, he,
      getOperandNode] at hok
    cases hL : st.nodes.getD e.source none with
    | none => rw [hL] at hok; simp at hok
    | some left =>
      rw [hL] at hok
      simp only [pure, Except.pure, Except.ok.injEq] at hok
      subst hok
      have haP : e.source ∈ P := hsrc e heE het
      have haLt : e.source < g.ops.length := (hwf.1 e heE).1
      have haNe : e.source ≠ c := fun h => hcP (h ▸ haP)
      have huna : getUnaryOperand g c = .ok e.source := by
        unfold getUnaryOperand
        rw [he]
      have hsc := fun i => sourceCount_unary g c e.source i hlen1 huna
      have hcnt : ∀ i, ([e.source] : List Nat).count i = sourceCount g c i := by
        intro i
        rw [hsc i]
        by_cases h1 : e.source = i <;> simp [List.count_cons, h1]
      have h0 := midInvAt_open g P c st st.cs (some (nodeNeg left)) hinv hc hcP
      have h1 := midInvAt_consume_list g P c [e.source] [] (some (nodeNeg left)) _ h0
        (fun o ho => by
          rcases List.mem_cons.mp ho with rfl | ho
          · exact ⟨haLt, haNe⟩
          · simp at ho)
        (fun i => by rw [List.nil_append, hcnt i]; exact hSCle i)
      exact midInvAt_close g P c ([] ++ [e.source]) _ _ h1
        (fun i => by rw [List.nil_append, hcnt i]) hcP hc
        (by simp [storesAt, hop]) houtc
  | mul =>
    have hop : g.ops[c]? = some .mul := by rw [List.getElem?_eq_getElem hc, hopc]
    have hbroles : binaryRolesOk g c = true := by
      unfold rolesOkAt at hroles
      rw [hop] at hroles
      exact hroles
    simp only [processNode, hop, Bind.bind, Except.bind] at hok
    cases hbin : getBinaryOperands g c with
    | error e => rw [hbin] at hok; simp at hok
    | ok lr =>
      obtain ⟨l, r⟩ := lr
      rw [hbin] at hok
      simp only [getOperandNode] at hok
      cases hL : st.nodes.getD l none with
      | none => rw [hL] at hok; simp at hok
      | some left =>
        cases hR : st.nodes.getD r none with
        | none => rw [hL, hR] at hok; simp at hok
        | some right =>
          rw [hL, hR] at hok
          have hshape : ∃ cs' v, st' =
              refCount (refCount { st with
                cs := cs', nodes := st.nodes.set c (some v) } l) r := by
            cases left with
            | linearCombination lx =>
              cases right with
              | linearCombination ly =>
                simp only [csMultiply, pure, Except.pure, Except.ok.injEq] at hok
                exact ⟨_, _, hok.symm⟩
              | scalar sy =>
                simp only [nodeMul, pure, Except.pure, Except.ok.injEq] at hok
                exact ⟨st.cs, _, hok.symm⟩
            | scalar sx =>
              cases right with
              | linearCombination ly =>
                simp only [nodeMul, pure, Except.pure, Except.ok.injEq] at hok
                exact ⟨st.cs, _, hok.symm⟩
              | scalar sy =>
                simp only [nodeMul, pure, Except.pure, Except.ok.injEq] at hok
                exact ⟨st.cs, _, hok.symm⟩
          obtain ⟨cs', v, rfl⟩ := hshape
          obtain ⟨⟨hlP, hlLt, hlNe⟩, ⟨hrP, hrLt, hrNe⟩⟩ :=
            binary_operand_facts g P c l r hwf hcP hsrc hbroles hbin
          have hsc := fun i => sourceCount_binary g c l r i hbroles hbin
          have hcnt : ∀ i, ([l, r] : List Nat).count i = sourceCount g c i := by
            intro i
            rw [hsc i]
            by_cases h1 : l = i <;> by_cases h2 : r = i <;>
              simp [List.count_cons, h1, h2]
          have h0 := midInvAt_open g P c st cs' (some v) hinv hc hcP
          have h1 := midInvAt_consume_list g P c [l, r] [] (some v) _ h0
            (fun o ho => by
              rcases List.mem_cons.mp ho with rfl | ho
              · exact ⟨hlLt, hlNe⟩
              · rcases List.mem_cons.mp ho with rfl | ho
                · exact ⟨hrLt, hrNe⟩
                · simp at ho)
            (fun i => by rw [List.nil_append, hcnt i]; exact hSCle i)
          exact midInvAt_close g P c ([] ++ [l, r]) _ _ h1
            (fun i => by rw [List.nil_append, hcnt i]) hcP hc
            (by simp [storesAt, hop]) houtc
  | constraint x =>
    have hop : g.ops[c]? = some (.constraint x) := by rw [List.getElem?_eq_getElem hc, hopc]
    have hall : (inEdges g c).all (fun e => decide (e.info = EdgeInfo.unordered)) = true := by
      unfold rolesOkAt at hroles
      rw [hop] at hroles
      exact hroles
    simp only [processNode, hop, Bind.bind, Except.bind] at hok
    cases htr : try_uint_to_scalar x with
    | error e => rw [htr] at hok; simp at hok
    | ok s =>
      rw [htr] at hok
      have hops : ∀ o ∈ getUnorderedOperands g c, o < g.ops.length ∧ o ≠ c := by
        intro o ho
        unfold getUnorderedOperands at ho
        obtain ⟨e, heF, rfl⟩ := List.mem_map.mp ho
        have heI : e ∈ inEdges g c := List.mem_of_mem_filter heF
        have heE : e ∈ g.edges := List.mem_of_mem_filter heI
        have het : e.target = c := by simpa using (List.mem_filter.mp heI).2
        have heP : e.source ∈ P := hsrc e heE het
        exact ⟨(hwf.1 e heE).1, fun h => hcP (h ▸ heP)⟩
      have hcnt : ∀ i, (getUnorderedOperands g c).count i = sourceCount g c i :=
        fun i => (sourceCount_constraint g c i hall).symm
      have h0 := midInvAt_open g P c st st.cs none hinv hc hcP
      have h1 := constraint_fold_midInv g P c s (getUnorderedOperands g c) [] none st st' h0
        hops (fun i => by rw [List.nil_append, hcnt i]; exact hSCle i) hok
      exact midInvAt_close g P c ([] ++ getUnorderedOperands g c) _ _ h1
        (fun i => by rw [List.nil_append, hcnt i]) hcP hc
        (by simp [storesAt, hop]) houtc

/-- Folding `processNode` over the remainder of a topological order carries
the per-traversal invariant from the processed prefix to the whole order. -/
theorem genCircuitWith_slotInv (g : ZkpGraph) (f : Nat → Option Scalar) (suf : List Nat) :
    ∀ (pre : List Nat) (st0 st : GenState),
    WfGraph g →
    IsTopoOrder g (pre ++ suf) →
    SlotInv g pre st0 →
    suf.foldlM (processNode g f) st0 = .ok st →
    SlotInv g (pre ++ suf) st := by
  induction suf with
  | nil =>
    intro pre st0 st _ _ hinv hfold
    simp only [List.foldlM_nil, pure, Except.pure, Except.ok.injEq] at hfold
    subst hfold
    simpa using hinv
  | cons c t ih =>
    intro pre st0 st hwf htopo hinv hfold
    rw [List.foldlM_cons] at hfold
    cases hstep : processNode g f st0 c with
    | error e => rw [hstep] at hfold; simp [Bind.bind, Except.bind] at hfold
    | ok st1 =>
      rw [hstep] at hfold
      simp only [Bind.bind, Except.bind] at hfold
      obtain ⟨hperm, hidx⟩ := htopo
      have hnd : (pre ++ c :: t).Nodup := (hperm.symm).nodup (List.nodup_range _)
      have hc : c < g.ops.length := by
        have : c ∈ pre ++ c :: t := by simp
        exact List.mem_range.mp (hperm.mem_iff.mp this)
      have hcP : c ∉ pre := by
        intro hcpre
        exact (List.nodup_append.mp hnd).2.2 hcpre (List.mem_cons_self c t)
      have hidxc : (pre ++ c :: t).indexOf c = pre.length := by
        rw [List.indexOf_append_of_not_mem hcP]
        simp [List.indexOf_cons_self]
      have hsrc : ∀ e ∈ g.edges, e.target = c → e.source ∈ pre := by
        intro e he het
        have hlt := hidx e he
        rw [het, hidxc] at hlt
        by_contra hns
        rw [List.indexOf_append_of_not_mem hns] at hlt
        omega
      have houtc : ∀ e ∈ g.edges, e.source = c → e.target ∉ pre ∧ e.target ≠ c := by
        intro e he hes
        have hlt := hidx e he
        rw [hes, hidxc] at hlt
        constructor
        · intro htp
          rw [List.indexOf_append_of_mem htp] at hlt
          have := List.indexOf_lt_length.mpr htp
          omega
        · intro htc
          rw [htc, hidxc] at hlt
          omega
      have hinv1 := processNode_slotInv_step g f st0 st1 pre c hwf hinv hc hcP hsrc houtc hstep
      have h2 := ih (pre ++ [c]) st1 st hwf
        (by rw [List.append_assoc, List.singleton_append]; exact ⟨hperm, hidx⟩)
        hinv1 hfold
      rw [List.append_assoc, List.singleton_append] at h2
      exact h2

/-- The fresh `gen_circuit` state satisfies the invariant with nothing
processed. -/
theorem initGenState_slotInv (g : ZkpGraph) : SlotInv g [] (initGenState g) := by
  refine ⟨by simp [initGenState], by simp [initGenState], ?_⟩
  intro i hi
  constructor
  · show ((List.range g.ops.length).map (outDegree g)).getD i 0 = _
    rw [List.getD_eq_getElem?_getD, List.getElem?_map, List.getElem?_range hi]
    show outDegree g i = edgesToUnprocessed g [] i
    unfold edgesToUnprocessed outDegree
    rw [List.countP_eq_length.mpr (by intro e _; simp)]
  · show ((List.replicate g.ops.length (none : Option BpNode)).getD i none).isSome = true ↔ _
    rw [List.getD_eq_getElem?_getD, List.getElem?_replicate]
    split <;> simp

/-- Claim C8 (amended): when `gen_circuit` succeeds along a topological
order, every node that has at least one consumer ends with its operand slot
cleared; only childless value-producing nodes (never `ref_count`ed) retain
their slots — so the blanket "every entry is `None`" fails (see the
counterexample) but holds for every consumed operand. -/
theorem c8_consumed_slots_cleared (g : ZkpGraph) (f : Nat → Option Scalar) (st : GenState)
    (hwf : WfGraph g) (htopo : IsTopoOrder g (forwardTraverseOrder g))
    (hok : genCircuit g f = .ok st) :
    ∀ i, i < g.ops.length → 0 < outDegree g i → st.nodes.getD i none = none := by
  have hfold : (forwardTraverseOrder g).foldlM (processNode g f) (initGenState g) = .ok st := hok
  have hinv := genCircuitWith_slotInv g f (forwardTraverseOrder g) [] (initGenState g) st hwf
    (by simpa using htopo) (initGenState_slotInv g) hfold
  rw [List.nil_append] at hinv
  obtain ⟨_, _, hall⟩ := hinv
  intro i hi hdeg
  have hE0 : edgesToUnprocessed g (forwardTraverseOrder g) i = 0 :=
    edgesToUnprocessed_eq_zero g _ i (fun e he =>
      htopo.1.mem_iff.mpr (List.mem_range.mpr (hwf.1 e he).2.1))
  have h2 := (hall i hi).2
  cases hn : st.nodes.getD i none with
  | none => rfl
  | some v =>
    have hsome := h2.mp (by rw [hn]; rfl)
    rcases hsome.2.2 with h0 | hpos
    · omega
    · omega

/-- Witness for the amended C8 on the repository's test graph: the run
succeeds, node 0 feeds the `Mul` node, and its slot ends cleared. -/
theorem c8_consumed_slots_cleared_witness :
    WfGraph gS1 ∧ IsTopoOrder gS1 (forwardTraverseOrder gS1) ∧
    genCircuit gS1 getInputNone =
      .ok ⟨[none, none, none, none, none, none], [0, 0, 0, 0, 0, 0],
        ⟨3, 1, [[(.committed 2, 1), (.mulOutput 0, 1), (.one, -42)]]⟩⟩ ∧
    0 < outDegree gS1 0 ∧
    (⟨[none, none, none, none, none, none], [0, 0, 0, 0, 0, 0],
      ⟨3, 1, [[(.committed 2, 1), (.mulOutput 0, 1), (.one, -42)]]⟩⟩ :
        GenState).nodes.getD 0 none = none :=
  ⟨by unfold WfGraph; decide, by unfold IsTopoOrder; decide, by decide, by decide,
    c8_consumed_slots_cleared gS1 getInputNone
      ⟨[none, none, none, none, none, none], [0, 0, 0, 0, 0, 0],
        ⟨3, 1, [[(.committed 2, 1), (.mulOutput 0, 1), (.one, -42)]]⟩⟩
      (by unfold WfGraph; decide) (by unfold IsTopoOrder; decide) (by decide)
      0 (by decide) (by decide)⟩
